import Mathlib

/-!
Shallow embedding of the record-storage core in
`src/mongo/db/storage/ephemeral_for_test/ephemeral_for_test_record_store.cpp`.

The backing container `Records` (a `std::map<RecordId, EphemeralForTestRecord>`)
is modelled as an association list kept in key order, which is exactly the
in-order element sequence of the `std::map`.  `RecordId` is modelled as `Nat`,
with `0` standing for the null `RecordId()` (`isNull`); normal ids are
positive.  Machine integers (`int64_t` sizes and counters) are modelled as
`Int`; no operation here brings them anywhere near overflow, so wrap-around is
not modelled.  The per-store recursive mutex serializes each primitive, so a
primitive operation is a pure function from store state to store state.
-/

namespace EphemeralForTest

/-- One stored record: a byte payload plus its length
(`EphemeralForTestRecord` from the store's header: `int size` together with
the heap buffer `data`; `bytes` models the buffer contents). -/
structure EphemeralForTestRecord where
  size : Nat
  bytes : List Nat
  deriving Repr, DecidableEq

/-- The backing map, as its in-order element sequence (sorted by key). -/
abbrev Records := List (Nat × EphemeralForTestRecord)

/-- `records.find(loc)` of the backing map: the record stored at `loc`, if any. -/
def findRec : Records → Nat → Option EphemeralForTestRecord
  | [], _ => none
  | (k, r) :: rest, loc => if loc = k then some r else findRec rest loc

/-- `records[loc] = rec` of the backing map: insert at the key-ordered
position, or overwrite an existing entry. -/
def setRec : Records → Nat → EphemeralForTestRecord → Records
  | [], loc, rec => [(loc, rec)]
  | (k, r) :: rest, loc, rec =>
    if loc < k then (loc, rec) :: (k, r) :: rest
    else if loc = k then (loc, rec) :: rest
    else (k, r) :: setRec rest loc rec

/-- `records.erase(loc)` of the backing map. -/
def eraseRec : Records → Nat → Records
  | [], _ => []
  | (k, r) :: rest, loc => if loc = k then rest else (k, r) :: eraseRec rest loc

/-- `records.begin()->first`: the smallest stored key. -/
def minKey (recs : Records) : Option Nat :=
  recs.head?.map (·.1)

/-- `records.rbegin()->first`: the largest stored key. -/
def maxKey (recs : Records) : Option Nat :=
  recs.getLast?.map (·.1)

/-- `records.lower_bound(loc)`: the first key `≥ loc` in iteration order
(`none` models `end()`). -/
def lowerBoundKey : Records → Nat → Option Nat
  | [], _ => none
  | (k, _) :: rest, loc => if loc ≤ k then some k else lowerBoundKey rest loc

/-- The element denoted by `reverse_iterator(records.upper_bound(loc))`:
the last key `≤ loc` (`none` models `rend()`). -/
def upperBoundPredKey : Records → Nat → Option Nat
  | [], _ => none
  | (k, _) :: rest, loc =>
    if k ≤ loc then some ((upperBoundPredKey rest loc).getD k) else none

/-- `++it` on a forward map iterator standing on key `k`: the first key `> k`. -/
def succKey : Records → Nat → Option Nat
  | [], _ => none
  | (k2, _) :: rest, k => if k < k2 then some k2 else succKey rest k

/-- `++it` on a reverse map iterator standing on key `k`: the last key `< k`. -/
def predKey : Records → Nat → Option Nat
  | [], _ => none
  | (k2, _) :: rest, k =>
    if k2 < k then some ((predKey rest k).getD k2) else none

/-- Keys of the map, in iteration order. -/
def keysOf (recs : Records) : List Nat :=
  recs.map (·.1)

/-- Sum of the sizes of the records currently present (spec §3 "sum of sizes
of records currently present"). -/
def sumSizes (recs : Records) : Int :=
  (recs.map fun p => (p.2.size : Int)).sum

/-- The map's element sequence is strictly ascending by key: always true of a
`std::map`, stated explicitly since `Records` is a bare list. -/
def sortedRecs (recs : Records) : Prop :=
  recs.Pairwise (fun a b => a.1 < b.1)

instance (recs : Records) : Decidable (sortedRecs recs) :=
  inferInstanceAs (Decidable (recs.Pairwise
    (fun (a b : Nat × EphemeralForTestRecord) => a.1 < b.1)))

/-- The mutable per-store `Data` of the record store: the backing map, the
running byte total `dataSize`, the id allocator `nextId`, and the oplog flag. -/
structure Data where
  records : Records
  dataSize : Int
  nextId : Nat
  isOplog : Bool
  deriving Repr, DecidableEq

/-- Construction-time configuration of one record store
(`_isCapped`, `_cappedMaxSize`, `_cappedMaxDocs`; `-1` means "not set").
The capped-delete callback is modelled as absent (`_cappedCallback == nullptr`),
so no eviction veto occurs. -/
structure StoreConfig where
  isCapped : Bool
  cappedMaxSize : Int
  cappedMaxDocs : Int
  deriving Repr, DecidableEq

/-- The constructor invariants of `EphemeralForTestRecordStore` (lines
285-291): a capped store has positive `cappedMaxSize` and `cappedMaxDocs`
either unset or positive; a non-capped store has both unset. -/
def StoreConfig.wf (cfg : StoreConfig) : Prop :=
  (cfg.isCapped = true →
    0 < cfg.cappedMaxSize ∧ (cfg.cappedMaxDocs = -1 ∨ 0 < cfg.cappedMaxDocs))
  ∧ (cfg.isCapped = false → cfg.cappedMaxSize = -1 ∧ cfg.cappedMaxDocs = -1)

/-- Recoverable `Status` errors surfaced by the store: the two
`ErrorCodes::BadValue` returns of the source, told apart by their messages,
plus key-extraction failure of the external oplog key extractor. -/
inductive StorageError
  | outOfOrder (key maxStored : Nat)
  | capacityExceeded
  | malformedPayload
  deriving Repr, DecidableEq

/-- An `invariant(...)` failure: fatal, aborts the process, never surfaced as
a recoverable `Status`. -/
inductive Fatal
  | invariantFailure
  deriving Repr, DecidableEq

/-- An undo `Change` registered with the recovery unit: `InsertChange` holds
the inserted id, `RemoveChange` holds the id and the full prior record,
`TruncateChange` holds the swapped-out map and size counter. -/
inductive Change
  | insert (loc : Nat)
  | remove (loc : Nat) (rec : EphemeralForTestRecord)
  | truncate (records : Records) (dataSize : Int)
  deriving Repr, DecidableEq

/-- `rollback()` of each `Change` (lines 54-62, 80-90, 110-116):
`InsertChange` erases the id if still present (silently doing nothing
otherwise); `RemoveChange` unconditionally reinstates the captured record,
subtracting the size of whatever currently sits at that id; `TruncateChange`
swaps the captured map and size counter back in. -/
def Change.rollback : Change → Data → Data
  | .insert loc, d =>
    match findRec d.records loc with
    | some r =>
      { d with dataSize := d.dataSize - (r.size : Int),
               records := eraseRec d.records loc }
    | none => d
  | .remove loc rec, d =>
    let cur : Int := match findRec d.records loc with
      | some r => (r.size : Int)
      | none => 0
    { d with dataSize := d.dataSize - cur + (rec.size : Int),
             records := setRec d.records loc rec }
  | .truncate recs dsz, d => { d with records := recs, dataSize := dsz }

/-- Rolling back a registration-ordered list of Changes in reverse
registration order, as the recovery unit does on transaction abort. -/
def rollbackAll (chgs : List Change) (d : Data) : Data :=
  chgs.foldr (fun c acc => c.rollback acc) d

/-- `numRecords()`: the size of the backing map. -/
def numRecords (d : Data) : Nat :=
  d.records.length

/-- `storageSize()` (lines 558-564): `dataSize` plus
`numRecords * sizeof(EphemeralForTestRecord)`; the per-record overhead
`recordOverhead` is a parameter since `sizeof` is platform-dependent
(positive on every platform). -/
def storageSize (recordOverhead : Int) (d : Data) : Int :=
  d.dataSize + (numRecords d : Int) * recordOverhead

/-- `sizeof(EphemeralForTestRecord)` on the reference LP64 platform:
a 4-byte `int` padded to 8 plus a two-pointer shared array handle.  Only its
positivity matters to any theorem below. -/
def sizeofEphemeralForTestRecord : Int := 24

/-- `findRecord()` (lines 326-336): the record if present, else nothing;
never fails. -/
def findRecord (d : Data) (loc : Nat) : Option EphemeralForTestRecord :=
  findRec d.records loc

/-- `dataFor()` via `recordFor` (lines 298-324): fatal invariant failure when
the id is absent. -/
def dataFor (d : Data) (loc : Nat) : Except Fatal EphemeralForTestRecord :=
  match findRec d.records loc with
  | none => .error .invariantFailure
  | some r => .ok r

/-- `deleteRecord()` (lines 338-351): `recordFor` (fatal if absent), register
a `RemoveChange`, subtract the size, erase the entry. -/
def deleteRecord (d : Data) (chgs : List Change) (loc : Nat) :
    Except Fatal (Data × List Change) :=
  match findRec d.records loc with
  | none => .error .invariantFailure
  | some rec =>
    .ok ({ d with dataSize := d.dataSize - (rec.size : Int),
                  records := eraseRec d.records loc },
         chgs ++ [Change.remove loc rec])

/-- `cappedAndNeedDelete()` (lines 353-364). -/
def cappedAndNeedDelete (cfg : StoreConfig) (d : Data) : Bool :=
  if !cfg.isCapped then false
  else if cfg.cappedMaxSize < d.dataSize then true
  else if cfg.cappedMaxDocs != -1 && cfg.cappedMaxDocs < (numRecords d : Int) then true
  else false

/-- `(eraseRec recs loc).length < recs.length` whenever `loc` is present;
termination measure of the capped-eviction loop. -/
theorem eraseRec_length_lt {recs : Records} {loc : Nat} {r : EphemeralForTestRecord}
    (h : findRec recs loc = some r) : (eraseRec recs loc).length < recs.length := by
  induction recs with
  | nil => simp [findRec] at h
  | cons p rest ih =>
    obtain ⟨k, r0⟩ := p
    by_cases hk : loc = k
    · simp [eraseRec, hk]
    · simp only [findRec, if_neg hk] at h
      simp only [eraseRec, if_neg hk, List.length_cons]
      exact Nat.succ_lt_succ (ih h)

/-- `cappedDeleteAsNeeded()` (lines 366-379), as a loop measured by the map
size: while the store is over its capped ceilings, delete the single oldest
(lowest-key) record — `records.begin()` — through the body of
`deleteRecord`, registering one `RemoveChange` per eviction.  Each iteration
deletes one present record, so `records.length` iterations always suffice;
an exhausted measure, like an empty map while still over the ceilings,
corresponds to the source's `invariant(!_data->records.empty())`,
unreachable whenever `dataSize` equals the sum of the stored sizes and the
configured ceilings are positive.  The capped-delete callback is modelled as
absent, so there is no veto path. -/
def cappedDeleteLoop (cfg : StoreConfig) :
    Nat → Data → List Change → Data × List Change
  | 0, d, chgs => (d, chgs)
  | fuel + 1, d, chgs =>
    if cappedAndNeedDelete cfg d then
      match d.records with
      | [] => (d, chgs)
      | (k, rec) :: _ =>
        cappedDeleteLoop cfg fuel
          { d with dataSize := d.dataSize - (rec.size : Int),
                   records := eraseRec d.records k }
          (chgs ++ [Change.remove k rec])
    else (d, chgs)

/-- `cappedDeleteAsNeeded()` entry point: run the eviction loop with the
map-size measure. -/
def cappedDeleteAsNeeded (cfg : StoreConfig) (d : Data) (chgs : List Change) :
    Data × List Change :=
  cappedDeleteLoop cfg d.records.length d chgs

/-- `allocateLoc()` (lines 566-570): hand out `nextId` and bump it; the id is
normal (positive) for every reachable state since the allocator starts at 1. -/
def allocateLoc (d : Data) : Nat × Data :=
  (d.nextId, { d with nextId := d.nextId + 1 })

/-- `extractAndCheckLocForOplog()` (lines 381-398): run the external key
extractor, then reject the key unless it is strictly greater than the largest
stored key. -/
def extractAndCheckLocForOplog (extractKey : List Nat → Except StorageError Nat)
    (d : Data) (payload : List Nat) : Except StorageError Nat :=
  match extractKey payload with
  | .error e => .error e
  | .ok k =>
    match maxKey d.records with
    | some m => if k ≤ m then .error (.outOfOrder k m) else .ok k
    | none => .ok k

/-- The `insertSingleFn` lambda of `insertRecords()` (lines 411-435): choose
the id (extracted for oplog stores, allocated otherwise), add the size, store
the record, register an `InsertChange`, then run capped eviction.  Returns
the assigned id alongside the new state. -/
def insertSingle (cfg : StoreConfig) (extractKey : List Nat → Except StorageError Nat)
    (d : Data) (chgs : List Change) (payload : List Nat) :
    Except StorageError (Data × List Change × Nat) :=
  let newRec : EphemeralForTestRecord := ⟨payload.length, payload⟩
  let locRes : Except StorageError (Nat × Data) :=
    if d.isOplog then
      match extractAndCheckLocForOplog extractKey d payload with
      | .error e => .error e
      | .ok k => .ok (k, d)
    else
      .ok (allocateLoc d)
  match locRes with
  | .error e => .error e
  | .ok (loc, d1) =>
    let d2 := { d1 with dataSize := d1.dataSize + (payload.length : Int),
                        records := setRec d1.records loc newRec }
    let step := cappedDeleteAsNeeded cfg d2 (chgs ++ [Change.insert loc])
    .ok (step.1, step.2, loc)

/-- Everything `insertRecords()` leaves behind: the store state, the
registered Changes, the ids written back into the batch, and the returned
`Status` (`none` = OK). -/
structure InsertOutcome where
  d : Data
  chgs : List Change
  ids : List Nat
  err : Option StorageError
  deriving Repr, DecidableEq

/-- The per-record loop of `insertRecords()` (lines 437-441): run
`insertSingleFn` on each record, returning the first failure immediately and
leaving the records already inserted by this call in place. -/
def insertLoop (cfg : StoreConfig) (extractKey : List Nat → Except StorageError Nat)
    (d : Data) (chgs : List Change) (ids : List Nat) :
    List (List Nat) → InsertOutcome
  | [] => ⟨d, chgs, ids, none⟩
  | p :: rest =>
    match insertSingle cfg extractKey d chgs p with
    | .error e => ⟨d, chgs, ids, some e⟩
    | .ok (d', chgs', loc) => insertLoop cfg extractKey d' chgs' (ids ++ [loc]) rest

/-- `insertRecords()` (lines 400-444): first the whole-batch capped size
pre-check (a record larger than `cappedMaxSize` rejects the call before
anything mutates), then the per-record insert loop. -/
def insertRecords (cfg : StoreConfig) (extractKey : List Nat → Except StorageError Nat)
    (d : Data) (chgs : List Change) (payloads : List (List Nat)) : InsertOutcome :=
  if cfg.isCapped && payloads.any (fun p => cfg.cappedMaxSize < (p.length : Int)) then
    ⟨d, chgs, [], some .capacityExceeded⟩
  else
    insertLoop cfg extractKey d chgs [] payloads

/-- `updateRecord()` (lines 446-466): `recordFor` (fatal if absent), the
capped fixed-size invariant (fatal), register a `RemoveChange` carrying the
prior record, adjust the byte total by the length delta, overwrite, then run
capped eviction. -/
def updateRecord (cfg : StoreConfig) (d : Data) (chgs : List Change)
    (loc : Nat) (newBytes : List Nat) : Except Fatal (Data × List Change) :=
  match findRec d.records loc with
  | none => .error .invariantFailure
  | some oldRecord =>
    let oldLen := oldRecord.size
    let len := newBytes.length
    if cfg.isCapped && len != oldLen then .error .invariantFailure
    else
      let newRecord : EphemeralForTestRecord := ⟨len, newBytes⟩
      let d1 := { d with dataSize := d.dataSize + (len : Int) - (oldLen : Int),
                         records := setRec d.records loc newRecord }
      let step := cappedDeleteAsNeeded cfg d1 (chgs ++ [Change.remove loc oldRecord])
      .ok step

/-- One damage event of `updateWithDamages`: copy `size` bytes from
`sourceOffset` in the damage source to `targetOffset` in the record. -/
structure Damage where
  sourceOffset : Nat
  targetOffset : Nat
  size : Nat
  deriving Repr, DecidableEq

/-- Apply one damage event to the private copy of the record bytes. -/
def applyDamage (target source : List Nat) (dmg : Damage) : List Nat :=
  target.take dmg.targetOffset
    ++ (source.drop dmg.sourceOffset).take dmg.size
    ++ target.drop (dmg.targetOffset + dmg.size)

/-- Apply the damage vector in order, as the `for` loop over `damages` does. -/
def applyDamages (target source : List Nat) (dmgs : List Damage) : List Nat :=
  dmgs.foldl (fun t dmg => applyDamage t source dmg) target

/-- `updateWithDamages()` (lines 472-504): `recordFor` (fatal if absent),
register a `RemoveChange` carrying the prior record, replace the entry with a
same-length private copy patched by the damage vector, run capped eviction;
the length (and hence `dataSize`) never changes.  Returns the patched record
(`newRecord.toRecordData()`). -/
def updateWithDamages (cfg : StoreConfig) (d : Data) (chgs : List Change)
    (loc : Nat) (damageSource : List Nat) (damages : List Damage) :
    Except Fatal (Data × List Change × EphemeralForTestRecord) :=
  match findRec d.records loc with
  | none => .error .invariantFailure
  | some oldRecord =>
    let newRecord : EphemeralForTestRecord :=
      ⟨oldRecord.size, applyDamages oldRecord.bytes damageSource damages⟩
    let d1 := { d with records := setRec d.records loc newRecord }
    let step := cappedDeleteAsNeeded cfg d1 (chgs ++ [Change.remove loc oldRecord])
    .ok (step.1, step.2, newRecord)

/-- `truncate()` (lines 513-518) together with the `TruncateChange`
constructor (lines 99-107): swap the whole map and size counter out into the
registered Change, leaving the store empty. -/
def truncate (d : Data) (chgs : List Change) : Data × List Change :=
  ({ d with records := [], dataSize := 0 },
   chgs ++ [Change.truncate d.records d.dataSize])

/-- The forward cursor (lines 125-186).  The map iterator `_it` is modelled
by the key of the element it points at (`none` = `end()`), which matches
`std::map` iterator stability: unrelated inserts and erases leave it
denoting the same element. -/
structure Cursor where
  it : Option Nat
  needFirstSeek : Bool
  lastMoveWasRestore : Bool
  savedId : Nat
  isCapped : Bool
  deriving Repr, DecidableEq

/-- The `Cursor` constructor (lines 127-128): unseeked, nothing saved,
capped flag copied from the store. -/
def Cursor.make (cfg : StoreConfig) : Cursor :=
  ⟨none, true, false, 0, cfg.isCapped⟩

/-- `Cursor::next()` (lines 130-142): bind to `begin()` on first use, advance
unless the last move was a restore, then report the element under the
iterator. -/
def Cursor.next (recs : Records) (c : Cursor) :
    Option (Nat × EphemeralForTestRecord) × Cursor :=
  let c1 :=
    if c.needFirstSeek then
      { c with needFirstSeek := false, it := minKey recs }
    else if !c.lastMoveWasRestore && c.it.isSome then
      { c with it := match c.it with
        | some k => succKey recs k
        | none => none }
    else c
  let c2 := { c1 with lastMoveWasRestore := false }
  match c2.it with
  | none => (none, c2)
  | some k => ((findRec recs k).map (fun r => (k, r)), c2)

/-- `Cursor::seekExact()` (lines 144-151). -/
def Cursor.seekExact (recs : Records) (c : Cursor) (id : Nat) :
    Option (Nat × EphemeralForTestRecord) × Cursor :=
  let found := findRec recs id
  let c1 := { c with lastMoveWasRestore := false, needFirstSeek := false,
                     it := found.map (fun _ => id) }
  (found.map (fun r => (id, r)), c1)

/-- `Cursor::save()` (lines 153-156): record the key under the iterator (the
null id at `end()`), unless unseeked or freshly restored. -/
def Cursor.save (c : Cursor) : Cursor :=
  if !c.needFirstSeek && !c.lastMoveWasRestore then
    { c with savedId := match c.it with | none => 0 | some k => k }
  else c

/-- `Cursor::saveUnpositioned()` (lines 158-160). -/
def Cursor.saveUnpositioned (c : Cursor) : Cursor :=
  { c with savedId := 0 }

/-- `Cursor::restore()` (lines 162-173): a null saved id resets to `end()`;
otherwise reposition at `lower_bound(saved)`, note whether the landing key
differs from the saved one, and fail (return `false`) on a capped store when
it does. -/
def Cursor.restore (recs : Records) (c : Cursor) : Bool × Cursor :=
  if c.savedId = 0 then (true, { c with it := none })
  else
    let it' := lowerBoundKey recs c.savedId
    let mismatch : Bool := match it' with
      | none => true
      | some k => k != c.savedId
    (!(c.isCapped && mismatch),
     { c with it := it', lastMoveWasRestore := mismatch })

/-- The reverse cursor (lines 188-261); `_it` is a reverse iterator, again
modelled by the key of the element it denotes (`none` = `rend()`). -/
structure ReverseCursor where
  it : Option Nat
  needFirstSeek : Bool
  lastMoveWasRestore : Bool
  savedId : Nat
  isCapped : Bool
  deriving Repr, DecidableEq

/-- The `ReverseCursor` constructor (lines 190-191). -/
def ReverseCursor.make (cfg : StoreConfig) : ReverseCursor :=
  ⟨none, true, false, 0, cfg.isCapped⟩

/-- `ReverseCursor::next()` (lines 193-205): bind to `rbegin()` on first use,
advance toward smaller keys unless the last move was a restore. -/
def ReverseCursor.next (recs : Records) (c : ReverseCursor) :
    Option (Nat × EphemeralForTestRecord) × ReverseCursor :=
  let c1 :=
    if c.needFirstSeek then
      { c with needFirstSeek := false, it := maxKey recs }
    else if !c.lastMoveWasRestore && c.it.isSome then
      { c with it := match c.it with
        | some k => predKey recs k
        | none => none }
    else c
  let c2 := { c1 with lastMoveWasRestore := false }
  match c2.it with
  | none => (none, c2)
  | some k => ((findRec recs k).map (fun r => (k, r)), c2)

/-- `ReverseCursor::seekExact()` (lines 207-224): land at `rend()` when the
id is absent. -/
def ReverseCursor.seekExact (recs : Records) (c : ReverseCursor) (id : Nat) :
    Option (Nat × EphemeralForTestRecord) × ReverseCursor :=
  let found := findRec recs id
  let c1 := { c with lastMoveWasRestore := false, needFirstSeek := false,
                     it := found.map (fun _ => id) }
  (found.map (fun r => (id, r)), c1)

/-- `ReverseCursor::save()` (lines 226-229). -/
def ReverseCursor.save (c : ReverseCursor) : ReverseCursor :=
  if !c.needFirstSeek && !c.lastMoveWasRestore then
    { c with savedId := match c.it with | none => 0 | some k => k }
  else c

/-- `ReverseCursor::saveUnpositioned()` (lines 231-233). -/
def ReverseCursor.saveUnpositioned (c : ReverseCursor) : ReverseCursor :=
  { c with savedId := 0 }

/-- `ReverseCursor::restore()` (lines 235-249): reposition at the first key
`≤ saved` via `reverse_iterator(upper_bound(saved))`, with the same capped
mismatch policy as the forward cursor. -/
def ReverseCursor.restore (recs : Records) (c : ReverseCursor) :
    Bool × ReverseCursor :=
  if c.savedId = 0 then (true, { c with it := none })
  else
    let it' := upperBoundPredKey recs c.savedId
    let mismatch : Bool := match it' with
      | none => true
      | some k => k != c.savedId
    (!(c.isCapped && mismatch),
     { c with it := it', lastMoveWasRestore := mismatch })

/-- Modelled from the spec: the freshly constructed per-store `Data` (its
definition lives in the store's header, which is not part of this tree):
"an ordered mapping from RecordId to Record, a running total byte size, a
monotonically increasing identifier allocator" — empty map, zero bytes, the
allocator at the first normal id. -/
def initialData (isOplog : Bool) : Data :=
  ⟨[], 0, 1, isOplog⟩

/-- All keys are below a bound (the allocator invariant of non-oplog stores). -/
def keysBelow (recs : Records) (n : Nat) : Prop :=
  ∀ k ∈ keysOf recs, k < n

instance (recs : Records) (n : Nat) : Decidable (keysBelow recs n) :=
  inferInstanceAs (Decidable (∀ k ∈ keysOf recs, k < n))

/-- `k` is the first stored key `≥ s` (the landing point of a forward
`restore`). -/
def isFirstKeyGE (recs : Records) (s k : Nat) : Prop :=
  k ∈ keysOf recs ∧ s ≤ k ∧ ∀ k' ∈ keysOf recs, s ≤ k' → k ≤ k'

/-- `k` is the last stored key `≤ s` (the landing point of a reverse
`restore`). -/
def isLastKeyLE (recs : Records) (s k : Nat) : Prop :=
  k ∈ keysOf recs ∧ k ≤ s ∧ ∀ k' ∈ keysOf recs, k' ≤ s → k' ≤ k

/-- The key/record pairs `insertRecords` would produce on a non-oplog store
with the allocator at `n` if nothing were ever evicted. -/
def idealPairs : Nat → List (List Nat) → Records
  | _, [] => []
  | n, p :: rest => (n, ⟨p.length, p⟩) :: idealPairs (n + 1) rest

section MapLemmas

theorem findRec_eq_none_of_not_mem {recs : Records} {loc : Nat}
    (h : loc ∉ keysOf recs) : findRec recs loc = none := by
  induction recs with
  | nil => rfl
  | cons p rest ih =>
    simp only [keysOf, List.map_cons, List.mem_cons, not_or] at h
    simpa [findRec, h.1] using ih (by simpa [keysOf] using h.2)

theorem mem_keysOf_of_findRec {recs : Records} {loc : Nat} {r : EphemeralForTestRecord}
    (h : findRec recs loc = some r) : loc ∈ keysOf recs := by
  induction recs with
  | nil => simp [findRec] at h
  | cons p rest ih =>
    by_cases hk : loc = p.1
    · simp [keysOf, hk]
    · simp only [findRec, if_neg hk] at h
      simpa [keysOf] using Or.inr (by simpa [keysOf] using ih h)

theorem findRec_of_mem_keysOf {recs : Records} {loc : Nat}
    (h : loc ∈ keysOf recs) : ∃ r, findRec recs loc = some r := by
  induction recs with
  | nil => simp [keysOf] at h
  | cons p rest ih =>
    by_cases hk : loc = p.1
    · exact ⟨p.2, by simp [findRec, hk]⟩
    · simp only [keysOf, List.map_cons, List.mem_cons] at h
      rcases h with h | h
      · exact absurd h hk
      · obtain ⟨r, hr⟩ := ih (by simpa [keysOf] using h)
        exact ⟨r, by simp [findRec, if_neg hk, hr]⟩

theorem findRec_setRec_self (recs : Records) (loc : Nat) (r : EphemeralForTestRecord) :
    findRec (setRec recs loc r) loc = some r := by
  induction recs with
  | nil => simp [setRec, findRec]
  | cons p rest ih =>
    obtain ⟨k, r0⟩ := p
    rcases Nat.lt_trichotomy loc k with hlt | heq | hgt
    · simp [setRec, hlt, findRec]
    · simp [setRec, heq, findRec]
    · have h1 : ¬ loc < k := Nat.not_lt.mpr (Nat.le_of_lt hgt)
      have h2 : loc ≠ k := Nat.ne_of_gt hgt
      simp [setRec, h1, h2, findRec, ih]

theorem findRec_setRec_ne {loc loc' : Nat} (recs : Records) (r : EphemeralForTestRecord)
    (h : loc' ≠ loc) : findRec (setRec recs loc r) loc' = findRec recs loc' := by
  induction recs with
  | nil => simp [setRec, findRec, h]
  | cons p rest ih =>
    obtain ⟨k, r0⟩ := p
    rcases Nat.lt_trichotomy loc k with hlt | heq | hgt
    · simp [setRec, hlt, findRec, h]
    · subst heq
      simp [setRec, findRec, h]
    · have h1 : ¬ loc < k := Nat.not_lt.mpr (Nat.le_of_lt hgt)
      have h2 : loc ≠ k := Nat.ne_of_gt hgt
      by_cases hk : loc' = k
      · simp [setRec, h1, h2, findRec, hk]
      · simp [setRec, h1, h2, findRec, hk, ih]

theorem eraseRec_setRec {recs : Records} {loc : Nat} (r : EphemeralForTestRecord)
    (h : loc ∉ keysOf recs) : eraseRec (setRec recs loc r) loc = recs := by
  induction recs with
  | nil => simp [setRec, eraseRec]
  | cons p rest ih =>
    obtain ⟨k, r0⟩ := p
    simp only [keysOf, List.map_cons, List.mem_cons, not_or] at h
    rcases Nat.lt_trichotomy loc k with hlt | heq | hgt
    · simp [setRec, hlt, eraseRec]
    · exact absurd heq h.1
    · have h1 : ¬ loc < k := Nat.not_lt.mpr (Nat.le_of_lt hgt)
      simp [setRec, h1, h.1, eraseRec, ih (by simpa [keysOf] using h.2)]

theorem eraseRec_sublist (recs : Records) (loc : Nat) :
    (eraseRec recs loc).Sublist recs := by
  induction recs with
  | nil => simp [eraseRec]
  | cons p rest ih =>
    by_cases hk : loc = p.1
    · simpa [eraseRec, hk] using List.sublist_cons_self p rest
    · simpa [eraseRec, hk] using ih.cons₂ p

theorem keysOf_setRec_subset {recs : Records} {loc k' : Nat} {r : EphemeralForTestRecord}
    (h : k' ∈ keysOf (setRec recs loc r)) : k' = loc ∨ k' ∈ keysOf recs := by
  induction recs with
  | nil => simpa [setRec, keysOf] using h
  | cons p rest ih =>
    obtain ⟨k, r0⟩ := p
    rcases Nat.lt_trichotomy loc k with hlt | heq | hgt
    · simpa [setRec, hlt, keysOf] using h
    · subst heq
      simpa [keysOf] using (by simpa [setRec, keysOf] using h)
    · have h1 : ¬ loc < k := Nat.not_lt.mpr (Nat.le_of_lt hgt)
      have h2 : loc ≠ k := Nat.ne_of_gt hgt
      simp only [setRec, if_neg h1, if_neg h2, keysOf, List.map_cons, List.mem_cons] at h
      rcases h with h | h
      · exact Or.inr (by simp [keysOf, h])
      · rcases ih (by simpa [keysOf] using h) with h' | h'
        · exact Or.inl h'
        · exact Or.inr (by simp [keysOf]; exact Or.inr (by simpa [keysOf] using h'))

end MapLemmas

section SortedLemmas

theorem keysOf_nil : keysOf ([] : Records) = [] := rfl

theorem keysOf_cons (p : Nat × EphemeralForTestRecord) (rest : Records) :
    keysOf (p :: rest) = p.1 :: keysOf rest := rfl

theorem keysOf_append (l1 l2 : Records) :
    keysOf (l1 ++ l2) = keysOf l1 ++ keysOf l2 := by
  simp [keysOf]

theorem sumSizes_nil : sumSizes [] = 0 := rfl

theorem sumSizes_cons (p : Nat × EphemeralForTestRecord) (rest : Records) :
    sumSizes (p :: rest) = (p.2.size : Int) + sumSizes rest := by
  simp [sumSizes]

theorem sumSizes_append (l1 l2 : Records) :
    sumSizes (l1 ++ l2) = sumSizes l1 + sumSizes l2 := by
  simp [sumSizes]

theorem sorted_head_lt {k : Nat} {r : EphemeralForTestRecord} {rest : Records}
    (hs : sortedRecs ((k, r) :: rest)) : ∀ k' ∈ keysOf rest, k < k' := by
  intro k' hk'
  rw [sortedRecs, List.pairwise_cons] at hs
  obtain ⟨q, hq, rfl⟩ := List.mem_map.mp hk'
  exact hs.1 q hq

theorem sortedRecs_tail {p : Nat × EphemeralForTestRecord} {rest : Records}
    (hs : sortedRecs (p :: rest)) : sortedRecs rest :=
  (List.pairwise_cons.mp hs).2

theorem sortedRecs_eraseRec {recs : Records} (hs : sortedRecs recs) (loc : Nat) :
    sortedRecs (eraseRec recs loc) :=
  List.Pairwise.sublist (eraseRec_sublist recs loc) hs

theorem sortedRecs_setRec {recs : Records} (hs : sortedRecs recs) (loc : Nat)
    (r : EphemeralForTestRecord) : sortedRecs (setRec recs loc r) := by
  induction recs with
  | nil => simp [setRec, sortedRecs]
  | cons p rest ih =>
    obtain ⟨k, r0⟩ := p
    have hhead := sorted_head_lt hs
    have htail : sortedRecs rest := sortedRecs_tail hs
    rcases Nat.lt_trichotomy loc k with hlt | heq | hgt
    · simp only [setRec, if_pos hlt]
      refine List.Pairwise.cons ?_ hs
      intro b hb
      rcases List.mem_cons.mp hb with rfl | hb
      · exact hlt
      · exact Nat.lt_trans hlt (hhead b.1 (List.mem_map_of_mem _ hb))
    · subst heq
      simp only [setRec, if_neg (Nat.lt_irrefl _), if_pos rfl]
      refine List.Pairwise.cons ?_ htail
      intro b hb
      exact hhead b.1 (List.mem_map_of_mem _ hb)
    · have h1 : ¬ loc < k := Nat.not_lt.mpr (Nat.le_of_lt hgt)
      have h2 : loc ≠ k := Nat.ne_of_gt hgt
      simp only [setRec, if_neg h1, if_neg h2]
      refine List.Pairwise.cons ?_ (ih htail)
      intro b hb
      rcases keysOf_setRec_subset (List.mem_map_of_mem _ hb) with h' | h'
      · rw [h']; exact hgt
      · exact hhead _ h'

theorem setRec_append {recs : Records} {loc : Nat} (r : EphemeralForTestRecord)
    (h : ∀ k' ∈ keysOf recs, k' < loc) : setRec recs loc r = recs ++ [(loc, r)] := by
  induction recs with
  | nil => simp [setRec]
  | cons p rest ih =>
    obtain ⟨k, r0⟩ := p
    have hk : k < loc := h k (by simp [keysOf_cons])
    have h1 : ¬ loc < k := Nat.not_lt.mpr (Nat.le_of_lt hk)
    have h2 : loc ≠ k := Nat.ne_of_gt hk
    have hrest : ∀ k' ∈ keysOf rest, k' < loc := fun k' hk' =>
      h k' (by simp only [keysOf_cons, List.mem_cons]; exact Or.inr hk')
    simp [setRec, h1, h2, ih hrest]

theorem setRec_prepend {recs : Records} {loc : Nat} (r : EphemeralForTestRecord)
    (h : ∀ k' ∈ keysOf recs, loc < k') : setRec recs loc r = (loc, r) :: recs := by
  cases recs with
  | nil => simp [setRec]
  | cons p rest =>
    obtain ⟨k, r0⟩ := p
    simp [setRec, h k (by simp [keysOf_cons])]

theorem sumSizes_eraseRec {recs : Records} {loc : Nat} {r : EphemeralForTestRecord}
    (h : findRec recs loc = some r) :
    sumSizes (eraseRec recs loc) = sumSizes recs - (r.size : Int) := by
  induction recs with
  | nil => simp [findRec] at h
  | cons p rest ih =>
    by_cases hk : loc = p.1
    · simp only [findRec, if_pos hk] at h
      obtain rfl : p.2 = r := by injection h
      simp only [eraseRec, hk, if_pos rfl, ite_true, sumSizes_cons]
      omega
    · simp only [findRec, if_neg hk] at h
      have hke : ¬ loc = p.1 := hk
      simp only [eraseRec, if_neg hke, sumSizes_cons, ih h]
      omega

theorem sumSizes_setRec_not_mem {recs : Records} {loc : Nat} (r : EphemeralForTestRecord)
    (h : loc ∉ keysOf recs) :
    sumSizes (setRec recs loc r) = sumSizes recs + (r.size : Int) := by
  induction recs with
  | nil => simp [setRec, sumSizes]
  | cons p rest ih =>
    obtain ⟨k, r0⟩ := p
    simp only [keysOf_cons, List.mem_cons, not_or] at h
    rcases Nat.lt_trichotomy loc k with hlt | heq | hgt
    · simp only [setRec, if_pos hlt, sumSizes_cons]
      omega
    · exact absurd heq h.1
    · have h1 : ¬ loc < k := Nat.not_lt.mpr (Nat.le_of_lt hgt)
      simp only [setRec, if_neg h1, if_neg h.1, sumSizes_cons, ih h.2]
      omega

theorem sumSizes_setRec_found {recs : Records} {loc : Nat} {old : EphemeralForTestRecord}
    (r : EphemeralForTestRecord) (hs : sortedRecs recs) (h : findRec recs loc = some old) :
    sumSizes (setRec recs loc r) = sumSizes recs - (old.size : Int) + (r.size : Int) := by
  induction recs with
  | nil => simp [findRec] at h
  | cons p rest ih =>
    obtain ⟨k, r0⟩ := p
    have htail : sortedRecs rest := sortedRecs_tail hs
    rcases Nat.lt_trichotomy loc k with hlt | heq | hgt
    · simp only [findRec, if_neg (Nat.ne_of_lt hlt)] at h
      have hmem : loc ∈ keysOf rest := mem_keysOf_of_findRec h
      have := sorted_head_lt hs loc hmem
      omega
    · subst heq
      simp only [findRec, if_pos rfl] at h
      obtain rfl : r0 = old := by injection h
      simp only [setRec, if_neg (Nat.lt_irrefl _), if_pos rfl, ite_true, sumSizes_cons]
      omega
    · have h1 : ¬ loc < k := Nat.not_lt.mpr (Nat.le_of_lt hgt)
      have h2 : loc ≠ k := Nat.ne_of_gt hgt
      simp only [findRec, if_neg h2] at h
      simp only [setRec, if_neg h1, if_neg h2, sumSizes_cons, ih htail h]
      omega

end SortedLemmas

section SearchLemmas

theorem maxKey_eq_none {recs : Records} (h : maxKey recs = none) : recs = [] := by
  induction recs with
  | nil => rfl
  | cons p rest ih =>
    cases rest with
    | nil => simp [maxKey, List.getLast?] at h
    | cons q rest' =>
      rw [maxKey] at h
      rw [List.getLast?_cons_cons] at h
      exact absurd (ih h) (by simp)

theorem maxKey_mem {recs : Records} {m : Nat} (h : maxKey recs = some m) :
    m ∈ keysOf recs := by
  induction recs with
  | nil => simp [maxKey, List.getLast?] at h
  | cons p rest ih =>
    cases rest with
    | nil =>
      simp only [maxKey, List.getLast?, Option.map_some] at h
      obtain rfl : p.1 = m := by injection h
      simp [keysOf_cons]
    | cons q rest' =>
      rw [maxKey, List.getLast?_cons_cons] at h
      exact List.mem_cons_of_mem _ (ih h)

theorem le_maxKey {recs : Records} (hs : sortedRecs recs) {m : Nat}
    (h : maxKey recs = some m) : ∀ k ∈ keysOf recs, k ≤ m := by
  induction recs with
  | nil => simp [keysOf_nil]
  | cons p rest ih =>
    intro k hk
    cases rest with
    | nil =>
      simp only [maxKey, List.getLast?, Option.map_some] at h
      obtain rfl : p.1 = m := by injection h
      simp only [keysOf_cons, keysOf_nil, List.mem_singleton] at hk
      omega
    | cons q rest' =>
      rw [maxKey, List.getLast?_cons_cons] at h
      rcases List.mem_cons.mp hk with rfl | hk'
      · have hm : m ∈ keysOf (q :: rest') := maxKey_mem h
        obtain ⟨qq, hqq, rfl⟩ := List.mem_map.mp hm
        exact Nat.le_of_lt ((List.pairwise_cons.mp hs).1 qq hqq)
      · exact ih (sortedRecs_tail hs) h k hk'

theorem lowerBoundKey_mem {recs : Records} {loc k : Nat}
    (h : lowerBoundKey recs loc = some k) : k ∈ keysOf recs := by
  induction recs with
  | nil => simp [lowerBoundKey] at h
  | cons p rest ih =>
    obtain ⟨k0, r0⟩ := p
    by_cases hle : loc ≤ k0
    · simp only [lowerBoundKey, if_pos hle] at h
      obtain rfl : k0 = k := by injection h
      simp [keysOf_cons]
    · simp only [lowerBoundKey, if_neg hle] at h
      simp only [keysOf_cons, List.mem_cons]
      exact Or.inr (ih h)

theorem le_lowerBoundKey {recs : Records} {loc k : Nat}
    (h : lowerBoundKey recs loc = some k) : loc ≤ k := by
  induction recs with
  | nil => simp [lowerBoundKey] at h
  | cons p rest ih =>
    obtain ⟨k0, r0⟩ := p
    by_cases hle : loc ≤ k0
    · simp only [lowerBoundKey, if_pos hle] at h
      obtain rfl : k0 = k := by injection h
      exact hle
    · simp only [lowerBoundKey, if_neg hle] at h
      exact ih h

theorem lowerBoundKey_min {recs : Records} (hs : sortedRecs recs) {loc k : Nat}
    (h : lowerBoundKey recs loc = some k) :
    ∀ k' ∈ keysOf recs, loc ≤ k' → k ≤ k' := by
  induction recs with
  | nil => simp [keysOf_nil]
  | cons p rest ih =>
    obtain ⟨k0, r0⟩ := p
    intro k' hk' hloc
    by_cases hle : loc ≤ k0
    · simp only [lowerBoundKey, if_pos hle] at h
      obtain rfl : k0 = k := by injection h
      rcases List.mem_cons.mp hk' with rfl | hk'
      · exact Nat.le_refl _
      · exact Nat.le_of_lt (sorted_head_lt hs k' hk')
    · simp only [lowerBoundKey, if_neg hle] at h
      rcases List.mem_cons.mp hk' with rfl | hk'
      · exact absurd hloc hle
      · exact ih (sortedRecs_tail hs) h k' hk' hloc

theorem lowerBoundKey_none {recs : Records} {loc : Nat}
    (h : lowerBoundKey recs loc = none) : ∀ k' ∈ keysOf recs, k' < loc := by
  induction recs with
  | nil => simp [keysOf_nil]
  | cons p rest ih =>
    obtain ⟨k0, r0⟩ := p
    intro k' hk'
    by_cases hle : loc ≤ k0
    · simp [lowerBoundKey, if_pos hle] at h
    · simp only [lowerBoundKey, if_neg hle] at h
      rcases List.mem_cons.mp hk' with rfl | hk'
      · omega
      · exact ih h k' hk'

theorem lowerBoundKey_self {recs : Records} (hs : sortedRecs recs) {loc : Nat}
    (h : loc ∈ keysOf recs) : lowerBoundKey recs loc = some loc := by
  induction recs with
  | nil => simp [keysOf_nil] at h
  | cons p rest ih =>
    obtain ⟨k0, r0⟩ := p
    rcases List.mem_cons.mp h with rfl | hmem
    · simp [lowerBoundKey]
    · have hk0 : k0 < loc := sorted_head_lt hs loc hmem
      have hle : ¬ loc ≤ k0 := by omega
      simp only [lowerBoundKey, if_neg hle]
      exact ih (sortedRecs_tail hs) hmem

theorem upperBoundPredKey_all_gt {recs : Records} {loc : Nat}
    (h : ∀ k' ∈ keysOf recs, loc < k') : upperBoundPredKey recs loc = none := by
  cases recs with
  | nil => rfl
  | cons p rest =>
    obtain ⟨k0, r0⟩ := p
    have hlt : loc < k0 := h k0 (by simp [keysOf_cons])
    have hn : ¬ k0 ≤ loc := by omega
    simp [upperBoundPredKey, hn]

theorem upperBoundPredKey_none {recs : Records} (hs : sortedRecs recs) {loc : Nat}
    (h : upperBoundPredKey recs loc = none) : ∀ k' ∈ keysOf recs, loc < k' := by
  cases recs with
  | nil => simp [keysOf_nil]
  | cons p rest =>
    obtain ⟨k0, r0⟩ := p
    intro k' hk'
    by_cases hle : k0 ≤ loc
    · simp [upperBoundPredKey, if_pos hle] at h
    · rcases List.mem_cons.mp hk' with rfl | hk'
      · omega
      · exact Nat.lt_trans (by omega) (sorted_head_lt hs k' hk')

theorem upperBoundPredKey_spec {recs : Records} (hs : sortedRecs recs) {loc k : Nat}
    (h : upperBoundPredKey recs loc = some k) : isLastKeyLE recs loc k := by
  induction recs with
  | nil => simp [upperBoundPredKey] at h
  | cons p rest ih =>
    obtain ⟨k0, r0⟩ := p
    by_cases hle : k0 ≤ loc
    · simp only [upperBoundPredKey, if_pos hle] at h
      cases hrest : upperBoundPredKey rest loc with
      | none =>
        rw [hrest] at h
        obtain rfl : k0 = k := by injection h
        refine ⟨by simp [keysOf_cons], hle, ?_⟩
        intro k' hk' hk'le
        rcases List.mem_cons.mp hk' with rfl | hk'
        · exact Nat.le_refl _
        · exact absurd hk'le (by
            have := upperBoundPredKey_none (sortedRecs_tail hs) hrest k' hk'
            omega)
      | some k2 =>
        rw [hrest] at h
        obtain rfl : k2 = k := by injection h
        obtain ⟨hmem, hkle, hmax⟩ := ih (sortedRecs_tail hs) hrest
        refine ⟨by simp only [keysOf_cons, List.mem_cons]; exact Or.inr hmem, hkle, ?_⟩
        intro k' hk' hk'le
        rcases List.mem_cons.mp hk' with rfl | hk'
        · exact Nat.le_of_lt (sorted_head_lt hs _ hmem)
        · exact hmax k' hk' hk'le
    · simp [upperBoundPredKey, if_neg hle] at h

theorem upperBoundPredKey_self {recs : Records} (hs : sortedRecs recs) {loc : Nat}
    (h : loc ∈ keysOf recs) : upperBoundPredKey recs loc = some loc := by
  induction recs with
  | nil => simp [keysOf_nil] at h
  | cons p rest ih =>
    obtain ⟨k0, r0⟩ := p
    rcases List.mem_cons.mp h with rfl | hmem
    · have hrest : upperBoundPredKey rest loc = none :=
        upperBoundPredKey_all_gt (fun k' hk' => sorted_head_lt hs k' hk')
      simp [upperBoundPredKey, hrest]
    · have hk0 : k0 < loc := sorted_head_lt hs loc hmem
      simp only [upperBoundPredKey, if_pos (Nat.le_of_lt hk0),
        ih (sortedRecs_tail hs) hmem, Option.getD_some]

theorem succKey_mem {recs : Records} {k k2 : Nat}
    (h : succKey recs k = some k2) : k2 ∈ keysOf recs := by
  induction recs with
  | nil => simp [succKey] at h
  | cons p rest ih =>
    obtain ⟨k0, r0⟩ := p
    by_cases hlt : k < k0
    · simp only [succKey, if_pos hlt] at h
      obtain rfl : k0 = k2 := by injection h
      simp [keysOf_cons]
    · simp only [succKey, if_neg hlt] at h
      simp only [keysOf_cons, List.mem_cons]
      exact Or.inr (ih h)

theorem lt_succKey {recs : Records} {k k2 : Nat}
    (h : succKey recs k = some k2) : k < k2 := by
  induction recs with
  | nil => simp [succKey] at h
  | cons p rest ih =>
    obtain ⟨k0, r0⟩ := p
    by_cases hlt : k < k0
    · simp only [succKey, if_pos hlt] at h
      obtain rfl : k0 = k2 := by injection h
      exact hlt
    · simp only [succKey, if_neg hlt] at h
      exact ih h

theorem succKey_min {recs : Records} (hs : sortedRecs recs) {k k2 : Nat}
    (h : succKey recs k = some k2) : ∀ k' ∈ keysOf recs, k < k' → k2 ≤ k' := by
  induction recs with
  | nil => simp [keysOf_nil]
  | cons p rest ih =>
    obtain ⟨k0, r0⟩ := p
    intro k' hk' hkk'
    by_cases hlt : k < k0
    · simp only [succKey, if_pos hlt] at h
      obtain rfl : k0 = k2 := by injection h
      rcases List.mem_cons.mp hk' with rfl | hk'
      · exact Nat.le_refl _
      · exact Nat.le_of_lt (sorted_head_lt hs k' hk')
    · simp only [succKey, if_neg hlt] at h
      rcases List.mem_cons.mp hk' with rfl | hk'
      · omega
      · exact ih (sortedRecs_tail hs) h k' hk' hkk'

theorem succKey_none {recs : Records} {k : Nat}
    (h : succKey recs k = none) : ∀ k' ∈ keysOf recs, k' ≤ k := by
  induction recs with
  | nil => simp [keysOf_nil]
  | cons p rest ih =>
    obtain ⟨k0, r0⟩ := p
    intro k' hk'
    by_cases hlt : k < k0
    · simp [succKey, if_pos hlt] at h
    · simp only [succKey, if_neg hlt] at h
      rcases List.mem_cons.mp hk' with rfl | hk'
      · omega
      · exact ih h k' hk'

end SearchLemmas

section EvictionLemmas

theorem cappedDeleteLoop_stop {cfg : StoreConfig} {d : Data} {chgs : List Change}
    (fuel : Nat) (h : cappedAndNeedDelete cfg d = false) :
    cappedDeleteLoop cfg fuel d chgs = (d, chgs) := by
  cases fuel with
  | zero => rfl
  | succ fuel => simp [cappedDeleteLoop, h]

theorem rollbackAll_cons (c : Change) (evs : List Change) (d : Data) :
    rollbackAll (c :: evs) d = c.rollback (rollbackAll evs d) := rfl

theorem rollbackAll_append (a b : List Change) (d : Data) :
    rollbackAll (a ++ b) d = rollbackAll a (rollbackAll b d) := by
  simp [rollbackAll, List.foldr_append]

theorem cappedAndNeedDelete_empty {cfg : StoreConfig} {d : Data}
    (hrec : d.records = []) (hz : d.dataSize = 0)
    (hguard : cfg.isCapped = true →
      0 < cfg.cappedMaxSize ∧ (cfg.cappedMaxDocs = -1 ∨ 0 < cfg.cappedMaxDocs)) :
    cappedAndNeedDelete cfg d = false := by
  unfold cappedAndNeedDelete
  cases hcap : cfg.isCapped with
  | false => simp
  | true =>
    obtain ⟨hms, hmd⟩ := hguard hcap
    have h1 : ¬ cfg.cappedMaxSize < d.dataSize := by omega
    have h2 : ¬ ((cfg.cappedMaxDocs != -1 &&
        decide (cfg.cappedMaxDocs < ((numRecords d : Int)))) = true) := by
      have hn : (numRecords d : Int) = 0 := by simp [numRecords, hrec]
      rw [hn]
      simp only [Bool.and_eq_true, bne_iff_ne, decide_eq_true_eq, not_and]
      intro hne
      rcases hmd with h | h
      · exact absurd h hne
      · omega
    simp only [Bool.not_true, Bool.false_eq_true, if_false, if_neg h1]
    simp only [if_neg h2]

/-- Everything the capped-eviction loop guarantees, for any measure at least
the map size: it removes some prefix of the (key-ordered) map, keeps the
byte total consistent, touches nothing else, registers one `RemoveChange`
per eviction whose reverse-order rollback restores the pre-loop state
exactly, and on exit the store is back under its ceilings (given the
constructor invariants). -/
theorem cappedDeleteLoop_spec (cfg : StoreConfig) :
    ∀ (fuel : Nat) (d : Data) (chgs : List Change) (d' : Data) (chgs' : List Change),
    d.records.length ≤ fuel →
    cappedDeleteLoop cfg fuel d chgs = (d', chgs') →
    sortedRecs d.records → d.dataSize = sumSizes d.records →
    ∃ j evs, j ≤ d.records.length ∧
      d'.records = d.records.drop j ∧
      d'.dataSize = sumSizes d'.records ∧
      d'.nextId = d.nextId ∧
      d'.isOplog = d.isOplog ∧
      chgs' = chgs ++ evs ∧
      rollbackAll evs d' = d ∧
      ((cfg.isCapped = true →
          0 < cfg.cappedMaxSize ∧ (cfg.cappedMaxDocs = -1 ∨ 0 < cfg.cappedMaxDocs)) →
        cappedAndNeedDelete cfg d' = false) := by
  intro fuel
  induction fuel with
  | zero =>
    intro d chgs d' chgs' hlen heq hs hz
    have hnil : d.records = [] := List.length_eq_zero.mp (Nat.le_zero.mp hlen)
    have heq2 : (d, chgs) = (d', chgs') := heq
    obtain ⟨rfl, rfl⟩ : d = d' ∧ chgs = chgs' := by
      constructor <;> [exact congrArg Prod.fst heq2; exact congrArg Prod.snd heq2]
    exact ⟨0, [], by omega, by simp, hz, rfl, rfl, by simp, rfl,
      fun hg => cappedAndNeedDelete_empty hnil (by rw [hz, hnil]; exact sumSizes_nil) hg⟩
  | succ fuel ih =>
    intro d chgs d' chgs' hlen heq hs hz
    by_cases hneed : cappedAndNeedDelete cfg d = true
    · obtain hrecs | ⟨⟨qk, qr⟩, rest, hrecs⟩ :
          d.records = [] ∨ ∃ q rest, d.records = q :: rest := by
        cases d.records with
        | nil => exact Or.inl rfl
        | cons q rest => exact Or.inr ⟨q, rest, rfl⟩
      · rw [cappedDeleteLoop, if_pos hneed, hrecs] at heq
        have heq2 : (d, chgs) = (d', chgs') := heq
        obtain ⟨rfl, rfl⟩ : d = d' ∧ chgs = chgs' := by
          constructor <;> [exact congrArg Prod.fst heq2; exact congrArg Prod.snd heq2]
        exact ⟨0, [], by omega, by simp, hz, rfl, rfl, by simp, rfl,
          fun hg => cappedAndNeedDelete_empty hrecs (by rw [hz, hrecs]; exact sumSizes_nil) hg⟩
      · rw [cappedDeleteLoop, if_pos hneed, hrecs] at heq
        have heq2 : cappedDeleteLoop cfg fuel
            { d with dataSize := d.dataSize - (qr.size : Int),
                     records := eraseRec ((qk, qr) :: rest) qk }
            (chgs ++ [Change.remove qk qr]) = (d', chgs') := heq
        have herase : eraseRec ((qk, qr) :: rest) qk = rest := by simp [eraseRec]
        rw [herase] at heq2
        have hheadlt : ∀ k' ∈ keysOf rest, qk < k' := sorted_head_lt (hrecs ▸ hs)
        have hs' : sortedRecs rest := sortedRecs_tail (hrecs ▸ hs)
        have hzc : d.dataSize = (qr.size : Int) + sumSizes rest := by
          rw [hz, hrecs, sumSizes_cons]
        have hz' : d.dataSize - (qr.size : Int) = sumSizes rest := by omega
        have hlen' : rest.length ≤ fuel := by
          rw [hrecs] at hlen
          simp only [List.length_cons] at hlen
          omega
        obtain ⟨j, evs, hjle, hdrec, hdsz, hnid, hop, hchg, hroll, hguard⟩ :=
          ih { d with dataSize := d.dataSize - (qr.size : Int), records := rest }
            (chgs ++ [Change.remove qk qr]) d' chgs' hlen' heq2 hs' hz'
        refine ⟨j + 1, Change.remove qk qr :: evs, ?_, ?_, hdsz, hnid, hop, ?_, ?_, hguard⟩
        · rw [hrecs]
          simp only [List.length_cons]
          have hjle2 : j ≤ rest.length := hjle
          omega
        · rw [hrecs, List.drop_succ_cons]
          exact hdrec
        · rw [hchg]
          simp
        · rw [rollbackAll_cons, hroll]
          show Change.rollback (Change.remove qk qr)
            { d with dataSize := d.dataSize - (qr.size : Int), records := rest } = d
          have hnone : findRec rest qk = none :=
            findRec_eq_none_of_not_mem (fun hmem => Nat.lt_irrefl _ (hheadlt _ hmem))
          have hset : setRec rest qk qr = (qk, qr) :: rest := setRec_prepend qr hheadlt
          simp only [Change.rollback, hnone, hset]
          rw [show d.dataSize - (qr.size : Int) - 0 + (qr.size : Int) = d.dataSize from by omega]
          rw [← hrecs]
    · have hstop : cappedAndNeedDelete cfg d = false := by
        cases h : cappedAndNeedDelete cfg d with
        | false => rfl
        | true => exact absurd h hneed
      rw [cappedDeleteLoop_stop (fuel + 1) hstop] at heq
      obtain ⟨rfl, rfl⟩ : d = d' ∧ chgs = chgs' := by
        constructor <;> [exact congrArg Prod.fst heq; exact congrArg Prod.snd heq]
      exact ⟨0, [], by omega, by simp, hz, rfl, rfl, by simp, rfl, fun _ => hstop⟩

/-- `cappedDeleteAsNeeded` guarantees: the loop variant of
`cappedDeleteLoop_spec` at the entry-point measure. -/
theorem cappedDeleteAsNeeded_spec (cfg : StoreConfig) (d : Data) (chgs : List Change)
    (d' : Data) (chgs' : List Change)
    (heq : cappedDeleteAsNeeded cfg d chgs = (d', chgs'))
    (hs : sortedRecs d.records) (hz : d.dataSize = sumSizes d.records) :
    ∃ j evs, j ≤ d.records.length ∧
      d'.records = d.records.drop j ∧
      d'.dataSize = sumSizes d'.records ∧
      d'.nextId = d.nextId ∧
      d'.isOplog = d.isOplog ∧
      chgs' = chgs ++ evs ∧
      rollbackAll evs d' = d ∧
      ((cfg.isCapped = true →
          0 < cfg.cappedMaxSize ∧ (cfg.cappedMaxDocs = -1 ∨ 0 < cfg.cappedMaxDocs)) →
        cappedAndNeedDelete cfg d' = false) :=
  cappedDeleteLoop_spec cfg d.records.length d chgs d' chgs' (Nat.le_refl _) heq hs hz

end EvictionLemmas

section InsertLemmas

theorem extractAndCheckLoc_ok {ek : List Nat → Except StorageError Nat} {d : Data}
    {payload : List Nat} {k : Nat}
    (h : extractAndCheckLocForOplog ek d payload = .ok k) :
    ek payload = .ok k ∧ ∀ m, maxKey d.records = some m → m < k := by
  unfold extractAndCheckLocForOplog at h
  cases hek : ek payload with
  | error e =>
    rw [hek] at h
    have h2 : (Except.error e : Except StorageError Nat) = Except.ok k := h
    simp at h2
  | ok k0 =>
    rw [hek] at h
    cases hm : maxKey d.records with
    | none =>
      rw [hm] at h
      have h2 : (Except.ok k0 : Except StorageError Nat) = Except.ok k := h
      obtain rfl : k0 = k := by simpa using h2
      exact ⟨rfl, fun m hm' => by simp at hm'⟩
    | some m0 =>
      rw [hm] at h
      have h2 : (if k0 ≤ m0 then
            (Except.error (StorageError.outOfOrder k0 m0) : Except StorageError Nat)
          else Except.ok k0) = Except.ok k := h
      by_cases hle : k0 ≤ m0
      · rw [if_pos hle] at h2; simp at h2
      · rw [if_neg hle] at h2
        obtain rfl : k0 = k := by simpa using h2
        refine ⟨rfl, fun m hm' => ?_⟩
        obtain rfl : m0 = m := by simpa using hm'
        omega

theorem not_mem_of_gt_maxKey {recs : Records} (hs : sortedRecs recs) {k : Nat}
    (h : ∀ m, maxKey recs = some m → m < k) : ∀ k' ∈ keysOf recs, k' < k := by
  intro k' hmem
  cases hm : maxKey recs with
  | none => rw [maxKey_eq_none hm] at hmem; simp [keysOf_nil] at hmem
  | some m =>
    have h1 := le_maxKey hs hm k' hmem
    have h2 := h m hm
    omega

theorem sortedRecs_append_single {recs : Records} (hs : sortedRecs recs) {loc : Nat}
    (r : EphemeralForTestRecord) (h : ∀ k' ∈ keysOf recs, k' < loc) :
    sortedRecs (recs ++ [(loc, r)]) := by
  rw [sortedRecs, List.pairwise_append]
  refine ⟨hs, List.pairwise_singleton _ _, ?_⟩
  intro a ha b hb
  rw [List.mem_singleton] at hb
  subst hb
  exact h a.1 (List.mem_map_of_mem _ ha)

theorem keysBelow_drop {recs : Records} {n : Nat} (j : Nat) (h : keysBelow recs n) :
    keysBelow (recs.drop j) n := fun k hk =>
  h k (List.Sublist.subset (List.Sublist.map _ (List.drop_sublist j recs)) hk)

theorem rollback_nextId_comm (c : Change) (d : Data) (n : Nat) :
    c.rollback { d with nextId := n } = { c.rollback d with nextId := n } := by
  cases c with
  | insert loc =>
    simp only [Change.rollback]
    cases hfd : findRec d.records loc <;> simp [hfd]
  | remove loc rec => rfl
  | truncate recs dsz => rfl

theorem rollbackAll_nextId_comm (evs : List Change) (d : Data) (n : Nat) :
    rollbackAll evs { d with nextId := n } = { rollbackAll evs d with nextId := n } := by
  induction evs with
  | nil => rfl
  | cons c evs ih => rw [rollbackAll_cons, rollbackAll_cons, ih, rollback_nextId_comm]

theorem sortedRecs_drop {recs : Records} (hs : sortedRecs recs) (j : Nat) :
    sortedRecs (recs.drop j) :=
  List.Pairwise.sublist (List.drop_sublist j recs) hs

theorem insertSingle_nonOplog_eq (cfg : StoreConfig)
    (ek : List Nat → Except StorageError Nat) (d : Data) (chgs : List Change)
    (p : List Nat) (hop : d.isOplog = false) :
    insertSingle cfg ek d chgs p =
      Except.ok
        ((cappedDeleteAsNeeded cfg
            { records := setRec d.records d.nextId ⟨p.length, p⟩,
              dataSize := d.dataSize + (p.length : Int),
              nextId := d.nextId + 1, isOplog := d.isOplog }
            (chgs ++ [Change.insert d.nextId])).1,
         (cappedDeleteAsNeeded cfg
            { records := setRec d.records d.nextId ⟨p.length, p⟩,
              dataSize := d.dataSize + (p.length : Int),
              nextId := d.nextId + 1, isOplog := d.isOplog }
            (chgs ++ [Change.insert d.nextId])).2,
         d.nextId) := by
  unfold insertSingle allocateLoc
  simp [hop]

theorem insertSingle_oplog_eq (cfg : StoreConfig)
    (ek : List Nat → Except StorageError Nat) (d : Data) (chgs : List Change)
    (p : List Nat) (k : Nat) (hop : d.isOplog = true)
    (hex : extractAndCheckLocForOplog ek d p = .ok k) :
    insertSingle cfg ek d chgs p =
      Except.ok
        ((cappedDeleteAsNeeded cfg
            { records := setRec d.records k ⟨p.length, p⟩,
              dataSize := d.dataSize + (p.length : Int),
              nextId := d.nextId, isOplog := d.isOplog }
            (chgs ++ [Change.insert k])).1,
         (cappedDeleteAsNeeded cfg
            { records := setRec d.records k ⟨p.length, p⟩,
              dataSize := d.dataSize + (p.length : Int),
              nextId := d.nextId, isOplog := d.isOplog }
            (chgs ++ [Change.insert k])).2,
         k) := by
  unfold insertSingle
  rw [hex]
  simp [hop]

theorem insertSingle_oplog_error_eq (cfg : StoreConfig)
    (ek : List Nat → Except StorageError Nat) (d : Data) (chgs : List Change)
    (p : List Nat) (e : StorageError) (hop : d.isOplog = true)
    (hex : extractAndCheckLocForOplog ek d p = .error e) :
    insertSingle cfg ek d chgs p = .error e := by
  unfold insertSingle
  rw [hex]
  simp [hop]

theorem rollback_insert_found {d : Data} {loc : Nat} {r : EphemeralForTestRecord}
    (hf : findRec d.records loc = some r) :
    Change.rollback (Change.insert loc) d =
      { d with dataSize := d.dataSize - (r.size : Int),
               records := eraseRec d.records loc } := by
  simp only [Change.rollback, hf]

/-- The tail of `insertSingleFn` after the id is chosen: record stored, size
added, `InsertChange` registered, eviction run.  `nid'` is whatever the
allocator holds afterwards (bumped for non-oplog inserts, unchanged for oplog
inserts). -/
theorem insertFinish_spec (cfg : StoreConfig) (d : Data) (chgs : List Change)
    (p : List Nat) (loc nid' : Nat) (d' : Data) (chgs' : List Change)
    (heq : cappedDeleteAsNeeded cfg
        { records := setRec d.records loc ⟨p.length, p⟩,
          dataSize := d.dataSize + (p.length : Int),
          nextId := nid', isOplog := d.isOplog }
        (chgs ++ [Change.insert loc]) = (d', chgs'))
    (hs : sortedRecs d.records) (hz : d.dataSize = sumSizes d.records)
    (hlt : ∀ k' ∈ keysOf d.records, k' < loc) :
    sortedRecs d'.records ∧
    d'.dataSize = sumSizes d'.records ∧
    d'.isOplog = d.isOplog ∧
    d'.nextId = nid' ∧
    keysBelow d'.records (loc + 1) ∧
    (∃ j, j ≤ d.records.length + 1 ∧
      d'.records =
        (d.records ++ [(loc, (⟨p.length, p⟩ : EphemeralForTestRecord))]).drop j) ∧
    (∃ evs, chgs' = chgs ++ Change.insert loc :: evs ∧
      rollbackAll (Change.insert loc :: evs) d' = { d with nextId := nid' }) ∧
    ((cfg.isCapped = true →
        0 < cfg.cappedMaxSize ∧ (cfg.cappedMaxDocs = -1 ∨ 0 < cfg.cappedMaxDocs)) →
      cappedAndNeedDelete cfg d' = false) := by
  have hfresh : loc ∉ keysOf d.records := fun hmem => Nat.lt_irrefl _ (hlt _ hmem)
  have hset : setRec d.records loc (⟨p.length, p⟩ : EphemeralForTestRecord) =
      d.records ++ [(loc, ⟨p.length, p⟩)] :=
    setRec_append _ hlt
  have hs2 : sortedRecs (setRec d.records loc (⟨p.length, p⟩ : EphemeralForTestRecord)) := by
    rw [hset]
    exact sortedRecs_append_single hs _ hlt
  have hz2 : d.dataSize + (p.length : Int) =
      sumSizes (setRec d.records loc (⟨p.length, p⟩ : EphemeralForTestRecord)) := by
    rw [hset, sumSizes_append, ← hz]
    simp [sumSizes_cons, sumSizes_nil]
  obtain ⟨j, evs, hjle, hdrec, hdsz, hnid, hop', hchg, hroll, hguard⟩ :=
    cappedDeleteAsNeeded_spec cfg
      { records := setRec d.records loc ⟨p.length, p⟩,
        dataSize := d.dataSize + (p.length : Int),
        nextId := nid', isOplog := d.isOplog }
      (chgs ++ [Change.insert loc]) d' chgs' heq hs2 hz2
  have hdrec2 : d'.records = (setRec d.records loc ⟨p.length, p⟩).drop j := hdrec
  have hjle2 : j ≤ (setRec d.records loc (⟨p.length, p⟩ : EphemeralForTestRecord)).length :=
    hjle
  have hnid2 : d'.nextId = nid' := hnid
  have hop2 : d'.isOplog = d.isOplog := hop'
  have hroll2 : rollbackAll evs d' =
      { records := setRec d.records loc ⟨p.length, p⟩,
        dataSize := d.dataSize + (p.length : Int),
        nextId := nid', isOplog := d.isOplog } := hroll
  have hjlen : (setRec d.records loc (⟨p.length, p⟩ : EphemeralForTestRecord)).length =
      d.records.length + 1 := by
    rw [hset, List.length_append, List.length_cons, List.length_nil]
  refine ⟨?_, hdsz, hop2, hnid2, ?_, ?_, ?_, hguard⟩
  · rw [hdrec2]
    exact sortedRecs_drop hs2 j
  · intro k' hk'
    rw [hdrec2] at hk'
    have hk'2 : k' ∈ keysOf (setRec d.records loc ⟨p.length, p⟩) :=
      List.Sublist.subset (List.Sublist.map _ (List.drop_sublist _ _)) hk'
    rw [hset, keysOf_append] at hk'2
    rcases List.mem_append.mp hk'2 with hmem | hmem
    · exact Nat.lt_succ_of_lt (hlt _ hmem)
    · simp only [keysOf_cons, keysOf_nil, List.mem_singleton] at hmem
      omega
  · exact ⟨j, by omega, by rw [hdrec2, hset]⟩
  · refine ⟨evs, by rw [hchg]; simp, ?_⟩
    rw [rollbackAll_cons, hroll2]
    have hfind : findRec (setRec d.records loc (⟨p.length, p⟩ : EphemeralForTestRecord)) loc =
        some ⟨p.length, p⟩ := findRec_setRec_self _ _ _
    rw [rollback_insert_found hfind]
    have herase : eraseRec (setRec d.records loc (⟨p.length, p⟩ : EphemeralForTestRecord)) loc =
        d.records := eraseRec_setRec _ hfresh
    simp [herase, Data.mk.injEq]

/-- Everything a successful `insertSingleFn` call guarantees, for a store
state that is consistent (sorted map, byte total equal to the sum of stored
sizes, and, on non-oplog stores, every key below the allocator). -/
theorem insertSingle_ok_spec {cfg : StoreConfig}
    {ek : List Nat → Except StorageError Nat} {d : Data} {chgs : List Change}
    {p : List Nat} {d' : Data} {chgs' : List Change} {loc : Nat}
    (h : insertSingle cfg ek d chgs p = .ok (d', chgs', loc))
    (hs : sortedRecs d.records) (hz : d.dataSize = sumSizes d.records)
    (hb : d.isOplog = false → keysBelow d.records d.nextId) :
    (∀ k' ∈ keysOf d.records, k' < loc) ∧
    sortedRecs d'.records ∧
    d'.dataSize = sumSizes d'.records ∧
    d'.isOplog = d.isOplog ∧
    (d.isOplog = false → loc = d.nextId ∧ d'.nextId = d.nextId + 1 ∧
      keysBelow d'.records d'.nextId) ∧
    (d.isOplog = true → d'.nextId = d.nextId) ∧
    (∃ j, j ≤ d.records.length + 1 ∧
      d'.records =
        (d.records ++ [(loc, (⟨p.length, p⟩ : EphemeralForTestRecord))]).drop j) ∧
    (∃ evs, chgs' = chgs ++ Change.insert loc :: evs ∧
      rollbackAll (Change.insert loc :: evs) d' = { d with nextId := d'.nextId }) ∧
    ((cfg.isCapped = true →
        0 < cfg.cappedMaxSize ∧ (cfg.cappedMaxDocs = -1 ∨ 0 < cfg.cappedMaxDocs)) →
      cappedAndNeedDelete cfg d' = false) := by
  rcases Bool.eq_false_or_eq_true d.isOplog with hop | hop
  · cases hex : extractAndCheckLocForOplog ek d p with
    | error e =>
      rw [insertSingle_oplog_error_eq cfg ek d chgs p e hop hex] at h
      simp at h
    | ok k =>
      rw [insertSingle_oplog_eq cfg ek d chgs p k hop hex] at h
      rw [Except.ok.injEq, Prod.mk.injEq, Prod.mk.injEq] at h
      obtain ⟨h1, h2, h3⟩ := h
      subst h3
      obtain ⟨hekk, hmax⟩ := extractAndCheckLoc_ok hex
      have hlt : ∀ k' ∈ keysOf d.records, k' < k := not_mem_of_gt_maxKey hs hmax
      have heq : cappedDeleteAsNeeded cfg
          { records := setRec d.records k ⟨p.length, p⟩,
            dataSize := d.dataSize + (p.length : Int),
            nextId := d.nextId, isOplog := d.isOplog }
          (chgs ++ [Change.insert k]) = (d', chgs') := by
        rw [← h1, ← h2]
      obtain ⟨f1, f2, f3, f4, f5, f6, f7, f8⟩ :=
        insertFinish_spec cfg d chgs p k d.nextId d' chgs' heq hs hz hlt
      refine ⟨hlt, f1, f2, f3, ?_, fun _ => f4, f6, ?_, f8⟩
      · intro hcontra
        rw [hcontra] at hop
        exact absurd hop (by simp)
      · obtain ⟨evs, he1, he2⟩ := f7
        exact ⟨evs, he1, by rw [f4]; exact he2⟩
  · rw [insertSingle_nonOplog_eq cfg ek d chgs p hop] at h
    rw [Except.ok.injEq, Prod.mk.injEq, Prod.mk.injEq] at h
    obtain ⟨h1, h2, h3⟩ := h
    subst h3
    have hlt : ∀ k' ∈ keysOf d.records, k' < d.nextId := hb hop
    have heq : cappedDeleteAsNeeded cfg
        { records := setRec d.records d.nextId ⟨p.length, p⟩,
          dataSize := d.dataSize + (p.length : Int),
          nextId := d.nextId + 1, isOplog := d.isOplog }
        (chgs ++ [Change.insert d.nextId]) = (d', chgs') := by
      rw [← h1, ← h2]
    obtain ⟨f1, f2, f3, f4, f5, f6, f7, f8⟩ :=
      insertFinish_spec cfg d chgs p d.nextId (d.nextId + 1) d' chgs' heq hs hz hlt
    refine ⟨hlt, f1, f2, f3, ?_, ?_, f6, ?_, f8⟩
    · exact fun _ => ⟨rfl, f4, by rw [f4]; exact f5⟩
    · intro hcontra
      rw [hcontra] at hop
      exact absurd hop (by simp)
    · obtain ⟨evs, he1, he2⟩ := f7
      exact ⟨evs, he1, by rw [f4]; exact he2⟩
/-- State consistency and exact rollback for the whole per-record loop of
`insertRecords`, whether it returns OK or stops at a mid-batch failure: the
surviving state is consistent, and rolling back the Changes the call
registered restores the map and the byte total exactly (only the id
allocator keeps its advanced value). -/
theorem insertLoop_spec (cfg : StoreConfig)
    (ek : List Nat → Except StorageError Nat) :
    ∀ (ps : List (List Nat)) (d : Data) (chgs : List Change) (ids : List Nat),
    sortedRecs d.records → d.dataSize = sumSizes d.records →
    (d.isOplog = false → keysBelow d.records d.nextId) →
    sortedRecs (insertLoop cfg ek d chgs ids ps).d.records ∧
    (insertLoop cfg ek d chgs ids ps).d.dataSize =
      sumSizes (insertLoop cfg ek d chgs ids ps).d.records ∧
    (insertLoop cfg ek d chgs ids ps).d.isOplog = d.isOplog ∧
    ((insertLoop cfg ek d chgs ids ps).d.isOplog = false →
      keysBelow (insertLoop cfg ek d chgs ids ps).d.records
        (insertLoop cfg ek d chgs ids ps).d.nextId) ∧
    (∃ evs, (insertLoop cfg ek d chgs ids ps).chgs = chgs ++ evs ∧
      rollbackAll evs (insertLoop cfg ek d chgs ids ps).d =
        { d with nextId := (insertLoop cfg ek d chgs ids ps).d.nextId }) := by
  intro ps
  induction ps with
  | nil =>
    intro d chgs ids hs hz hb
    refine ⟨hs, hz, rfl, hb, [], by simp [insertLoop], rfl⟩
  | cons p ps ih =>
    intro d chgs ids hs hz hb
    cases hstep : insertSingle cfg ek d chgs p with
    | error e =>
      rw [show insertLoop cfg ek d chgs ids (p :: ps) = ⟨d, chgs, ids, some e⟩ from by
        simp [insertLoop, hstep]]
      exact ⟨hs, hz, rfl, hb, [], by simp, rfl⟩
    | ok trip =>
      obtain ⟨d1, chgs1, loc⟩ := trip
      obtain ⟨f1, f2, f3, f4, f5, f6, f7, f8, f9⟩ :=
        insertSingle_ok_spec hstep hs hz hb
      have hb1 : d1.isOplog = false → keysBelow d1.records d1.nextId := by
        intro h1
        rw [f4] at h1
        exact (f5 h1).2.2
      simp only [insertLoop, hstep]
      obtain ⟨g1, g2, g3, g4, g5⟩ := ih d1 chgs1 (ids ++ [loc]) f2 f3 hb1
      refine ⟨g1, g2, by rw [g3, f4], g4, ?_⟩
      obtain ⟨evs1, he1, he2⟩ := f8
      obtain ⟨evs2, hg1, hg2⟩ := g5
      refine ⟨(Change.insert loc :: evs1) ++ evs2, ?_, ?_⟩
      · rw [hg1, he1]
        simp
      · rw [rollbackAll_append, hg2]
        have hcomm := rollbackAll_nextId_comm (Change.insert loc :: evs1) d1
          (insertLoop cfg ek d1 chgs1 (ids ++ [loc]) ps).d.nextId
        rw [hcomm, he2]

/-- The `insertRecords` loop on a capped, non-oplog store never fails, leaves
the allocator advanced by the batch length, and leaves as the surviving map a
drop-suffix of the pre-state map extended by the batch's key/record pairs;
after a non-empty batch the capped ceilings hold. -/
theorem insertLoop_capped_spec (cfg : StoreConfig)
    (ek : List Nat → Except StorageError Nat) :
    ∀ (ps : List (List Nat)) (d : Data) (chgs : List Change) (ids : List Nat),
    d.isOplog = false → sortedRecs d.records →
    d.dataSize = sumSizes d.records → keysBelow d.records d.nextId →
    (insertLoop cfg ek d chgs ids ps).err = none ∧
    (insertLoop cfg ek d chgs ids ps).d.nextId = d.nextId + ps.length ∧
    (∃ j, (insertLoop cfg ek d chgs ids ps).d.records =
      (d.records ++ idealPairs d.nextId ps).drop j) ∧
    (ps ≠ [] →
      (cfg.isCapped = true →
        0 < cfg.cappedMaxSize ∧ (cfg.cappedMaxDocs = -1 ∨ 0 < cfg.cappedMaxDocs)) →
      cappedAndNeedDelete cfg (insertLoop cfg ek d chgs ids ps).d = false) := by
  intro ps
  induction ps with
  | nil =>
    intro d chgs ids hop hs hz hb
    refine ⟨rfl, by simp [insertLoop], ⟨0, by simp [insertLoop, idealPairs]⟩, ?_⟩
    intro hne
    exact absurd rfl hne
  | cons p ps ih =>
    intro d chgs ids hop hs hz hb
    cases hstep : insertSingle cfg ek d chgs p with
    | error e =>
      rw [insertSingle_nonOplog_eq cfg ek d chgs p hop] at hstep
      simp at hstep
    | ok trip =>
      obtain ⟨d1, chgs1, loc⟩ := trip
      obtain ⟨f1, f2, f3, f4, f5, f6, f7, f8, f9⟩ :=
        insertSingle_ok_spec hstep hs hz (fun _ => hb)
      obtain ⟨hloc, hnid1, hb1⟩ := f5 hop
      subst hloc
      have hop1 : d1.isOplog = false := by rw [f4, hop]
      simp only [insertLoop, hstep]
      obtain ⟨g1, g2, g3, g4⟩ := ih d1 chgs1 (ids ++ [d.nextId]) hop1 f2 f3 hb1
      refine ⟨g1, ?_, ?_, ?_⟩
      · rw [g2, hnid1, List.length_cons]
        omega
      · obtain ⟨j1, hj1le, hj1⟩ := f7
        obtain ⟨j2, hj2⟩ := g3
        refine ⟨j2 + j1, ?_⟩
        rw [hj2, hj1, hnid1]
        have hj1len : j1 ≤
            (d.records ++ [(d.nextId, (⟨p.length, p⟩ : EphemeralForTestRecord))]).length := by
          rw [List.length_append, List.length_cons, List.length_nil]
          omega
        rw [← List.drop_append_of_le_length hj1len, List.drop_drop, Nat.add_comm j1 j2]
        have hideal : (d.records ++ [(d.nextId, (⟨p.length, p⟩ : EphemeralForTestRecord))])
              ++ idealPairs (d.nextId + 1) ps =
            d.records ++ idealPairs d.nextId (p :: ps) := by
          rw [List.append_assoc, List.singleton_append]
          rfl
        rw [hideal]
      · intro hne hguard
        cases ps with
        | nil =>
          simp only [insertLoop]
          exact f9 hguard
        | cons q qs =>
          exact g4 (by simp) hguard

end InsertLemmas

section Claims

/-- Modelled from the spec: the external oplog key extractor collaborator
("extract ordering key from raw payload → key or malformed-payload error",
§6; `oploghack::extractKey`, whose source is outside this tree).  General
theorems are parameterized over an arbitrary extractor; concrete examples
use this one, which reads the key from the first payload byte. -/
def headByteExtractor : List Nat → Except StorageError Nat
  | [] => .error .malformedPayload
  | b :: _ => .ok b

/-- A Change value is internally consistent: a `TruncateChange` carries a
byte total matching its captured map (true of every Change the operations
register from a consistent state). -/
def wfChange : Change → Prop
  | .truncate recs dsz => dsz = sumSizes recs
  | _ => True

/-- Claim C1: on an oplog-flagged store, `insertRecords` rejects with the
out-of-order error any record whose extracted key is not strictly greater
than the largest stored key, and the rejection happens before that record
changes any store state: the insert loop stops at the offending record with
the store, the registered Changes and the assigned ids exactly as they stood
after the earlier records, and (when the capped pre-check passes) the whole
`insertRecords` call surfaces that error. -/
theorem oplog_insert_out_of_order_rejected
    (cfg : StoreConfig) (ek : List Nat → Except StorageError Nat)
    (d : Data) (chgs : List Change) (ids : List Nat)
    (p : List Nat) (rest : List (List Nat)) (k m : Nat)
    (hop : d.isOplog = true) (hek : ek p = .ok k)
    (hm : maxKey d.records = some m) (hle : k ≤ m) :
    insertLoop cfg ek d chgs ids (p :: rest) =
      ⟨d, chgs, ids, some (StorageError.outOfOrder k m)⟩ ∧
    ((cfg.isCapped &&
        (p :: rest).any fun q => cfg.cappedMaxSize < (q.length : Int)) = false →
      insertRecords cfg ek d chgs (p :: rest) =
        ⟨d, chgs, [], some (StorageError.outOfOrder k m)⟩) := by
  have hex : extractAndCheckLocForOplog ek d p = .error (.outOfOrder k m) := by
    unfold extractAndCheckLocForOplog
    rw [hek, hm]
    show (if k ≤ m then
        (Except.error (StorageError.outOfOrder k m) : Except StorageError Nat)
      else Except.ok k) = Except.error (StorageError.outOfOrder k m)
    rw [if_pos hle]
  have hloop : ∀ ids', insertLoop cfg ek d chgs ids' (p :: rest) =
      ⟨d, chgs, ids', some (.outOfOrder k m)⟩ := by
    intro ids'
    have hstep := insertSingle_oplog_error_eq cfg ek d chgs p _ hop hex
    simp [insertLoop, hstep]
  refine ⟨hloop ids, fun hpre => ?_⟩
  rw [insertRecords, if_neg (by rw [hpre]; simp)]
  exact hloop []

/-- Claim C1 witness: inserting keys 5, 10, 7 into an empty oplog store —
5 and 10 succeed, 7 is rejected with OutOfOrder before any state change, and
the maximum stored key stays 10. -/
theorem oplog_insert_out_of_order_rejected_witness :
    (insertRecords ⟨false, -1, -1⟩ headByteExtractor (initialData true) []
        [[5]]).d =
      (⟨[(5, ⟨1, [5]⟩)], 1, 1, true⟩ : Data) ∧
    (insertRecords ⟨false, -1, -1⟩ headByteExtractor
        (⟨[(5, ⟨1, [5]⟩)], 1, 1, true⟩ : Data) [Change.insert 5] [[10]]).d =
      (⟨[(5, ⟨1, [5]⟩), (10, ⟨1, [10]⟩)], 2, 1, true⟩ : Data) ∧
    insertRecords ⟨false, -1, -1⟩ headByteExtractor
        (⟨[(5, ⟨1, [5]⟩), (10, ⟨1, [10]⟩)], 2, 1, true⟩ : Data)
        [Change.insert 5, Change.insert 10] [[7]] =
      ⟨⟨[(5, ⟨1, [5]⟩), (10, ⟨1, [10]⟩)], 2, 1, true⟩,
       [Change.insert 5, Change.insert 10], [],
       some (StorageError.outOfOrder 7 10)⟩ ∧
    maxKey ([(5, ⟨1, [5]⟩), (10, ⟨1, [10]⟩)] : Records) = some 10 := by
  refine ⟨by decide, by decide, ?_, by decide⟩
  have happ := oplog_insert_out_of_order_rejected ⟨false, -1, -1⟩ headByteExtractor
    (⟨[(5, ⟨1, [5]⟩), (10, ⟨1, [10]⟩)], 2, 1, true⟩ : Data)
    [Change.insert 5, Change.insert 10] [] [7] [] 7 10 rfl rfl (by decide) (by decide)
  exact happ.2 (by decide)

/-- Claim C6 counterexample: rolling back an `InsertChange` whose RecordId
is absent (id 7; the store holds only id 2) completes as a silent no-op with
the store unchanged, and rolling back a `RemoveChange` for an absent id
silently reinstates its captured record — neither signals any invariant
violation, contradicting the claim. -/
theorem rollback_missing_state_noop_cex :
    Change.rollback (Change.insert 7)
        (⟨[(2, ⟨1, [9]⟩)], 1, 3, false⟩ : Data) =
      (⟨[(2, ⟨1, [9]⟩)], 1, 3, false⟩ : Data) ∧
    Change.rollback (Change.remove 7 ⟨1, [4]⟩)
        (⟨[(2, ⟨1, [9]⟩)], 1, 3, false⟩ : Data) =
      (⟨[(2, ⟨1, [9]⟩), (7, ⟨1, [4]⟩)], 2, 3, false⟩ : Data) := by
  constructor
  · decide
  · decide

/-- Claim C6 amended: a rollback handler that cannot locate the state it
expects to restore tolerates the situation rather than signalling: an insert
Change whose RecordId is absent from the map rolls back as a silently-ignored
no-op, and a remove Change reinstates its captured record unconditionally
(this tolerance is load-bearing: a concurrent capped eviction may have
removed a record this transaction inserted). -/
theorem rollback_missing_state_tolerated (d : Data) (loc : Nat)
    (r : EphemeralForTestRecord) (habs : findRec d.records loc = none) :
    Change.rollback (Change.insert loc) d = d ∧
    Change.rollback (Change.remove loc r) d =
      { d with dataSize := d.dataSize + (r.size : Int),
               records := setRec d.records loc r } := by
  constructor
  · simp only [Change.rollback, habs]
  · simp only [Change.rollback, habs]
    have : d.dataSize - 0 + (r.size : Int) = d.dataSize + (r.size : Int) := by omega
    rw [this]

/-- Claim C6 amended witness: the tolerated-no-op behavior at a concrete
store holding only id 2, rolling back Changes for the absent id 9. -/
theorem rollback_missing_state_tolerated_witness :
    Change.rollback (Change.insert 9)
        (⟨[(2, ⟨1, [9]⟩)], 1, 3, false⟩ : Data) =
      (⟨[(2, ⟨1, [9]⟩)], 1, 3, false⟩ : Data) ∧
    Change.rollback (Change.remove 9 ⟨2, [7, 7]⟩)
        (⟨[(2, ⟨1, [9]⟩)], 1, 3, false⟩ : Data) =
      { (⟨[(2, ⟨1, [9]⟩)], 1, 3, false⟩ : Data) with
          dataSize := (1 : Int) + (2 : Int),
          records := setRec [(2, ⟨1, [9]⟩)] 9 ⟨2, [7, 7]⟩ } := by
  exact rollback_missing_state_tolerated
    (⟨[(2, ⟨1, [9]⟩)], 1, 3, false⟩ : Data) 9 ⟨2, [7, 7]⟩ (by decide)

/-- Claim C7: `truncate()` leaves the store with an empty record map and a
zero byte total by swapping the whole map and size counter into the
registered `TruncateChange`, and rolling that Change back restores the map
and the byte total exactly as they were immediately before the truncate —
truncate followed by rollback is the identity on the store state. -/
theorem truncate_rollback_identity (d : Data) (chgs : List Change) :
    (truncate d chgs).1.records = [] ∧
    (truncate d chgs).1.dataSize = 0 ∧
    (truncate d chgs).2 = chgs ++ [Change.truncate d.records d.dataSize] ∧
    Change.rollback (Change.truncate d.records d.dataSize) (truncate d chgs).1 = d ∧
    rollbackAll [Change.truncate d.records d.dataSize] (truncate d chgs).1 = d :=
  ⟨rfl, rfl, rfl, rfl, rfl⟩

/-- Claim C10: calling `deleteRecord`, `updateRecord` or `updateWithDamages`
(or `dataFor`) with an absent RecordId hits `recordFor`'s invariant — a
fatal failure, never a recoverable `Status` — and under the precondition
that the id is present the absent-id branch is unreachable: `deleteRecord`
and `updateWithDamages` succeed, and `updateRecord` succeeds whenever the
capped fixed-size invariant is respected. -/
theorem absent_id_is_invariant_failure (cfg : StoreConfig) (d : Data)
    (chgs : List Change) (loc : Nat) (newBytes src : List Nat)
    (dmgs : List Damage) (r : EphemeralForTestRecord) :
    (findRec d.records loc = none →
      deleteRecord d chgs loc = .error .invariantFailure ∧
      updateRecord cfg d chgs loc newBytes = .error .invariantFailure ∧
      updateWithDamages cfg d chgs loc src dmgs = .error .invariantFailure ∧
      dataFor d loc = .error .invariantFailure) ∧
    (findRec d.records loc = some r →
      (∃ x, deleteRecord d chgs loc = .ok x) ∧
      (∃ y, updateWithDamages cfg d chgs loc src dmgs = .ok y) ∧
      ((cfg.isCapped && newBytes.length != r.size) = false →
        ∃ z, updateRecord cfg d chgs loc newBytes = .ok z)) := by
  constructor
  · intro habs
    refine ⟨?_, ?_, ?_, ?_⟩ <;>
      simp [deleteRecord, updateRecord, updateWithDamages, dataFor, habs]
  · intro hpres
    refine ⟨?_, ?_, ?_⟩
    · exact ⟨_, by unfold deleteRecord; rw [hpres]⟩
    · exact ⟨_, by unfold updateWithDamages; rw [hpres]⟩
    · intro hc
      exact ⟨_, by simp only [updateRecord, hpres]; rw [if_neg (by rw [hc]; simp)]⟩

/-- Claim C10 witness: the fatal/successful branches at a concrete store
holding only id 2 — absent id 9 is fatal for all three mutators, present
id 2 succeeds. -/
theorem absent_id_is_invariant_failure_witness :
    (deleteRecord (⟨[(2, ⟨1, [9]⟩)], 1, 3, false⟩ : Data) [] 9 =
        .error .invariantFailure ∧
      updateRecord ⟨false, -1, -1⟩ (⟨[(2, ⟨1, [9]⟩)], 1, 3, false⟩ : Data) [] 9 [1] =
        .error .invariantFailure ∧
      updateWithDamages ⟨false, -1, -1⟩ (⟨[(2, ⟨1, [9]⟩)], 1, 3, false⟩ : Data) [] 9 [] [] =
        .error .invariantFailure ∧
      dataFor (⟨[(2, ⟨1, [9]⟩)], 1, 3, false⟩ : Data) 9 = .error .invariantFailure) ∧
    ((∃ x, deleteRecord (⟨[(2, ⟨1, [9]⟩)], 1, 3, false⟩ : Data) [] 2 = .ok x) ∧
      (∃ y, updateWithDamages ⟨false, -1, -1⟩
        (⟨[(2, ⟨1, [9]⟩)], 1, 3, false⟩ : Data) [] 2 [] [] = .ok y) ∧
      ((⟨false, -1, -1⟩ : StoreConfig).isCapped = false →
        ∃ z, updateRecord ⟨false, -1, -1⟩
          (⟨[(2, ⟨1, [9]⟩)], 1, 3, false⟩ : Data) [] 2 [1] = .ok z)) := by
  have h1 := (absent_id_is_invariant_failure ⟨false, -1, -1⟩
    (⟨[(2, ⟨1, [9]⟩)], 1, 3, false⟩ : Data) [] 9 [1] [] [] ⟨1, [9]⟩).1 (by decide)
  have h2 := (absent_id_is_invariant_failure ⟨false, -1, -1⟩
    (⟨[(2, ⟨1, [9]⟩)], 1, 3, false⟩ : Data) [] 2 [1] [] [] ⟨1, [9]⟩).2 (by decide)
  exact ⟨h1, h2.1, h2.2.1, fun _ => h2.2.2 (by decide)⟩

/-- Claim C3: when the saved key no longer has an exact match at restore
time, `restore()` fails (returns false) on a capped store in both cursor
directions, while on a non-capped store it succeeds and repositions the
forward cursor at the first surviving key `≥` the saved key and the reverse
cursor at the last surviving key `≤` the saved key (end-of-stream exactly
when no such key survives). -/
theorem restore_mismatch_policy (recs : Records) (c : Cursor) (rc : ReverseCursor)
    (hs : sortedRecs recs)
    (hcs : c.savedId ≠ 0) (habs : findRec recs c.savedId = none)
    (hrs : rc.savedId ≠ 0) (hrabs : findRec recs rc.savedId = none) :
    (c.isCapped = true → (c.restore recs).1 = false) ∧
    (c.isCapped = false → (c.restore recs).1 = true) ∧
    ((c.restore recs).2.it = none → ∀ k' ∈ keysOf recs, k' < c.savedId) ∧
    (∀ k, (c.restore recs).2.it = some k → isFirstKeyGE recs c.savedId k) ∧
    (rc.isCapped = true → (rc.restore recs).1 = false) ∧
    (rc.isCapped = false → (rc.restore recs).1 = true) ∧
    ((rc.restore recs).2.it = none → ∀ k' ∈ keysOf recs, rc.savedId < k') ∧
    (∀ k, (rc.restore recs).2.it = some k → isLastKeyLE recs rc.savedId k) := by
  have hneF : ∀ k, lowerBoundKey recs c.savedId = some k → (k != c.savedId) = true := by
    intro k hlb
    have hkmem := lowerBoundKey_mem hlb
    refine bne_iff_ne.mpr ?_
    intro hkeq
    obtain ⟨r, hr⟩ := findRec_of_mem_keysOf (hkeq ▸ hkmem)
    rw [hr] at habs
    exact Option.noConfusion habs
  have hneR : ∀ k, upperBoundPredKey recs rc.savedId = some k →
      (k != rc.savedId) = true := by
    intro k hub
    have hkmem := (upperBoundPredKey_spec hs hub).1
    refine bne_iff_ne.mpr ?_
    intro hkeq
    obtain ⟨r, hr⟩ := findRec_of_mem_keysOf (hkeq ▸ hkmem)
    rw [hr] at hrabs
    exact Option.noConfusion hrabs
  refine ⟨?_, ?_, ?_, ?_, ?_, ?_, ?_, ?_⟩
  · intro hcap
    cases hlb : lowerBoundKey recs c.savedId with
    | none => simp [Cursor.restore, hcs, hlb, hcap]
    | some k => simp [Cursor.restore, hcs, hlb, hcap, hneF k hlb]
  · intro hcap
    cases hlb : lowerBoundKey recs c.savedId with
    | none => simp [Cursor.restore, hcs, hlb, hcap]
    | some k => simp [Cursor.restore, hcs, hlb, hcap]
  · intro hit k' hk'
    cases hlb : lowerBoundKey recs c.savedId with
    | none => exact lowerBoundKey_none hlb k' hk'
    | some k =>
      exfalso
      have hsome : (c.restore recs).2.it = some k := by
        simp [Cursor.restore, hcs, hlb]
      rw [hsome] at hit
      exact Option.noConfusion hit
  · intro k hit
    cases hlb : lowerBoundKey recs c.savedId with
    | none =>
      exfalso
      have hnone : (c.restore recs).2.it = none := by
        simp [Cursor.restore, hcs, hlb]
      rw [hnone] at hit
      exact Option.noConfusion hit
    | some k0 =>
      have hsome : (c.restore recs).2.it = some k0 := by
        simp [Cursor.restore, hcs, hlb]
      rw [hsome] at hit
      obtain rfl : k0 = k := by injection hit
      exact ⟨lowerBoundKey_mem hlb, le_lowerBoundKey hlb, lowerBoundKey_min hs hlb⟩
  · intro hcap
    cases hub : upperBoundPredKey recs rc.savedId with
    | none => simp [ReverseCursor.restore, hrs, hub, hcap]
    | some k => simp [ReverseCursor.restore, hrs, hub, hcap, hneR k hub]
  · intro hcap
    cases hub : upperBoundPredKey recs rc.savedId with
    | none => simp [ReverseCursor.restore, hrs, hub, hcap]
    | some k => simp [ReverseCursor.restore, hrs, hub, hcap]
  · intro hit k' hk'
    cases hub : upperBoundPredKey recs rc.savedId with
    | none => exact upperBoundPredKey_none hs hub k' hk'
    | some k =>
      exfalso
      have hsome : (rc.restore recs).2.it = some k := by
        simp [ReverseCursor.restore, hrs, hub]
      rw [hsome] at hit
      exact Option.noConfusion hit
  · intro k hit
    cases hub : upperBoundPredKey recs rc.savedId with
    | none =>
      exfalso
      have hnone : (rc.restore recs).2.it = none := by
        simp [ReverseCursor.restore, hrs, hub]
      rw [hnone] at hit
      exact Option.noConfusion hit
    | some k0 =>
      have hsome : (rc.restore recs).2.it = some k0 := by
        simp [ReverseCursor.restore, hrs, hub]
      rw [hsome] at hit
      obtain rfl : k0 = k := by injection hit
      exact upperBoundPredKey_spec hs hub

/-- Claim C3 witness: a store holding keys 1 and 3 with saved key 2 (which
no longer exists): a capped forward or reverse cursor fails to restore, a
non-capped forward cursor restores successfully, and a non-capped reverse
cursor restores successfully. -/
theorem restore_mismatch_policy_witness :
    (Cursor.restore [(1, ⟨1, [10]⟩), (3, ⟨1, [30]⟩)]
      ⟨some 2, false, false, 2, true⟩).1 = false ∧
    (Cursor.restore [(1, ⟨1, [10]⟩), (3, ⟨1, [30]⟩)]
      ⟨some 2, false, false, 2, false⟩).1 = true ∧
    (ReverseCursor.restore [(1, ⟨1, [10]⟩), (3, ⟨1, [30]⟩)]
      ⟨some 2, false, false, 2, true⟩).1 = false ∧
    (ReverseCursor.restore [(1, ⟨1, [10]⟩), (3, ⟨1, [30]⟩)]
      ⟨some 2, false, false, 2, false⟩).1 = true := by
  have h1 := restore_mismatch_policy [(1, ⟨1, [10]⟩), (3, ⟨1, [30]⟩)]
    ⟨some 2, false, false, 2, true⟩ ⟨some 2, false, false, 2, true⟩
    (by decide) (by decide) (by decide) (by decide) (by decide)
  have h2 := restore_mismatch_policy [(1, ⟨1, [10]⟩), (3, ⟨1, [30]⟩)]
    ⟨some 2, false, false, 2, false⟩ ⟨some 2, false, false, 2, false⟩
    (by decide) (by decide) (by decide) (by decide) (by decide)
  exact ⟨h1.1 rfl, h2.2.1 rfl, h1.2.2.2.2.1 rfl, h2.2.2.2.2.2.1 rfl⟩

/-- The three-record store used by the claim C8 counterexample and witness. -/
def recsSaveRestore : Records :=
  [(1, ⟨1, [10]⟩), (2, ⟨1, [20]⟩), (3, ⟨1, [30]⟩)]

/-- Claim C8 counterexample: a forward cursor on a non-capped store holding
ids 1,2,3 is positioned at id 2 by two `next()` calls; after `save()`, an
unrelated insert of the larger id 4, and a successful `restore()`, the next
`next()` yields the record with id 3 — not the saved id 2 as the claim
states (iteration resumes after the saved record, it is not re-yielded). -/
theorem save_restore_next_cex :
    (((((((Cursor.make ⟨false, -1, -1⟩).next recsSaveRestore).2.next
            recsSaveRestore).2.save).restore
          (setRec recsSaveRestore 4 ⟨1, [40]⟩)).2.next
        (setRec recsSaveRestore 4 ⟨1, [40]⟩)).1 = some (3, ⟨1, [30]⟩)) ∧
    ¬ ((((((Cursor.make ⟨false, -1, -1⟩).next recsSaveRestore).2.next
            recsSaveRestore).2.save).restore
          (setRec recsSaveRestore 4 ⟨1, [40]⟩)).2.next
        (setRec recsSaveRestore 4 ⟨1, [40]⟩)).1 = some (2, ⟨1, [20]⟩) := by
  constructor
  · decide
  · decide

/-- Claim C8 amended: for a forward cursor positioned at id `k` that is
saved and then restored against a map still containing `k` (for instance
after an unrelated insert of a larger id), `restore()` succeeds and the next
`next()` yields the first record with id strictly greater than `k` — the
saved record itself is not re-yielded, and no record between is skipped. -/
theorem save_restore_next_after_saved (recs' : Records) (c : Cursor)
    (k : Nat) (r : EphemeralForTestRecord)
    (hs : sortedRecs recs') (hit : c.it = some k) (hseek : c.needFirstSeek = false)
    (hlm : c.lastMoveWasRestore = false) (hk0 : 0 < k)
    (hpres : findRec recs' k = some r) :
    ((c.save.restore recs').1 = true) ∧
    (((c.save.restore recs').2.next recs').1 = none →
      ∀ k' ∈ keysOf recs', k' ≤ k) ∧
    (∀ k2 r2, ((c.save.restore recs').2.next recs').1 = some (k2, r2) →
      k < k2 ∧ findRec recs' k2 = some r2 ∧
      ∀ k' ∈ keysOf recs', k < k' → k2 ≤ k') := by
  have hk0ne : ¬ (k = 0) := by omega
  have hsave : c.save = { c with savedId := k } := by
    simp [Cursor.save, hseek, hlm, hit]
  have hlb : lowerBoundKey recs' k = some k :=
    lowerBoundKey_self hs (mem_keysOf_of_findRec hpres)
  have hres : c.save.restore recs' =
      (true, ⟨some k, c.needFirstSeek, false, k, c.isCapped⟩) := by
    rw [hsave]
    simp [Cursor.restore, hk0ne, hlb]
  refine ⟨by rw [hres], ?_, ?_⟩
  · intro hnone k' hk'
    cases hsk : succKey recs' k with
    | none => exact succKey_none hsk k' hk'
    | some k2 =>
      exfalso
      obtain ⟨r2, hr2⟩ := findRec_of_mem_keysOf (succKey_mem hsk)
      have hcomp : ((c.save.restore recs').2.next recs').1 = some (k2, r2) := by
        rw [hres]
        simp [Cursor.next, hseek, hsk, hr2]
      rw [hcomp] at hnone
      exact Option.noConfusion hnone
  · intro k2 r2 hsome
    cases hsk : succKey recs' k with
    | none =>
      exfalso
      have hcomp : ((c.save.restore recs').2.next recs').1 = none := by
        rw [hres]
        simp [Cursor.next, hseek, hsk]
      rw [hcomp] at hsome
      exact Option.noConfusion hsome
    | some k2' =>
      obtain ⟨r2', hr2'⟩ := findRec_of_mem_keysOf (succKey_mem hsk)
      have hcomp : ((c.save.restore recs').2.next recs').1 = some (k2', r2') := by
        rw [hres]
        simp [Cursor.next, hseek, hsk, hr2']
      rw [hcomp] at hsome
      obtain ⟨rfl, rfl⟩ : k2' = k2 ∧ r2' = r2 := by
        have h2 := Option.some.inj hsome
        exact ⟨congrArg Prod.fst h2, congrArg Prod.snd h2⟩
      exact ⟨lt_succKey hsk, hr2', succKey_min hs hsk⟩

/-- Claim C8 amended witness: in the counterexample scenario (cursor at
id 2, id 4 inserted, restore), the theorem instantiated at the resumed
record id 3: it is strictly after the saved id 2, it is stored, and it is
the least id above 2. -/
theorem save_restore_next_after_saved_witness :
    2 < 3 ∧
    findRec (setRec recsSaveRestore 4 ⟨1, [40]⟩) 3 = some ⟨1, [30]⟩ ∧
    ∀ k' ∈ keysOf (setRec recsSaveRestore 4 ⟨1, [40]⟩), 2 < k' → 3 ≤ k' :=
  (save_restore_next_after_saved (setRec recsSaveRestore 4 ⟨1, [40]⟩)
    ⟨some 2, false, false, 0, false⟩ 2 ⟨1, [20]⟩
    (by decide) rfl rfl rfl (by decide) (by decide)).2.2 3 ⟨1, [30]⟩ (by decide)

/-- Claim C9 counterexample: on a cursor on which `next()` has never been
called, `saveUnpositioned()` followed by `restore()` does not reset to
end-of-stream: the pending first-seek survives the restore, so the next
`next()` yields the first record of the non-empty store instead of nothing. -/
theorem saveUnpositioned_restore_fresh_cex :
    ((((Cursor.make ⟨false, -1, -1⟩).saveUnpositioned).restore
        [(1, (⟨1, [10]⟩ : EphemeralForTestRecord))]).1 = true) ∧
    (((((Cursor.make ⟨false, -1, -1⟩).saveUnpositioned).restore
          [(1, (⟨1, [10]⟩ : EphemeralForTestRecord))]).2.next
        [(1, (⟨1, [10]⟩ : EphemeralForTestRecord))]).1 =
      some (1, ⟨1, [10]⟩)) := by
  constructor
  · decide
  · decide

/-- Claim C9 amended: for every cursor on which `next()` or `seekExact()`
HAS been called at least once (so the first seek is no longer pending),
`saveUnpositioned()` followed by `restore()` resets the cursor to
end-of-stream: restore succeeds, the iterator is at the end, and every
subsequent `next()` returns nothing (the post-`next` state is a fixpoint);
likewise for the reverse cursor.  (A never-used cursor instead keeps its
pending first seek, as the counterexample shows.) -/
theorem saveUnpositioned_restore_eos (recs : Records) (c : Cursor)
    (rc : ReverseCursor)
    (hseek : c.needFirstSeek = false) (hrseek : rc.needFirstSeek = false) :
    ((c.saveUnpositioned.restore recs).1 = true) ∧
    ((c.saveUnpositioned.restore recs).2.it = none) ∧
    (((c.saveUnpositioned.restore recs).2.next recs).1 = none) ∧
    ((((c.saveUnpositioned.restore recs).2.next recs).2.next recs).1 = none) ∧
    ((((c.saveUnpositioned.restore recs).2.next recs).2.next recs).2 =
      ((c.saveUnpositioned.restore recs).2.next recs).2) ∧
    ((rc.saveUnpositioned.restore recs).1 = true) ∧
    ((rc.saveUnpositioned.restore recs).2.it = none) ∧
    (((rc.saveUnpositioned.restore recs).2.next recs).1 = none) ∧
    ((((rc.saveUnpositioned.restore recs).2.next recs).2.next recs).1 = none) ∧
    ((((rc.saveUnpositioned.restore recs).2.next recs).2.next recs).2 =
      ((rc.saveUnpositioned.restore recs).2.next recs).2) := by
  have hres : c.saveUnpositioned.restore recs =
      (true, { c with savedId := 0, it := none }) := by
    simp [Cursor.saveUnpositioned, Cursor.restore]
  have hrres : rc.saveUnpositioned.restore recs =
      (true, { rc with savedId := 0, it := none }) := by
    simp [ReverseCursor.saveUnpositioned, ReverseCursor.restore]
  rw [hres, hrres]
  refine ⟨rfl, rfl, ?_, ?_, ?_, rfl, rfl, ?_, ?_, ?_⟩ <;>
    simp [Cursor.next, ReverseCursor.next, hseek, hrseek]

/-- Claim C9 amended witness: a cursor that has consumed the single record
of a one-record store, then saveUnpositioned and restore: next() yields
nothing, twice, with a stable state; same for the reverse cursor. -/
theorem saveUnpositioned_restore_eos_witness :
    ((Cursor.saveUnpositioned ⟨some 1, false, false, 0, false⟩).restore
        [(1, (⟨1, [10]⟩ : EphemeralForTestRecord))]).1 = true ∧
    (((Cursor.saveUnpositioned ⟨some 1, false, false, 0, false⟩).restore
          [(1, (⟨1, [10]⟩ : EphemeralForTestRecord))]).2.next
        [(1, (⟨1, [10]⟩ : EphemeralForTestRecord))]).1 = none ∧
    (((ReverseCursor.saveUnpositioned ⟨some 1, false, false, 0, false⟩).restore
          [(1, (⟨1, [10]⟩ : EphemeralForTestRecord))]).2.next
        [(1, (⟨1, [10]⟩ : EphemeralForTestRecord))]).1 = none := by
  have h := saveUnpositioned_restore_eos
    [(1, (⟨1, [10]⟩ : EphemeralForTestRecord))]
    ⟨some 1, false, false, 0, false⟩ ⟨some 1, false, false, 0, false⟩ rfl rfl
  exact ⟨h.1, h.2.2.1, h.2.2.2.2.2.2.2.1⟩

instance (cfg : StoreConfig) : Decidable cfg.wf := by
  unfold StoreConfig.wf
  infer_instance

instance (c : Change) : Decidable (wfChange c) := by
  cases c with
  | insert loc => exact inferInstanceAs (Decidable True)
  | remove loc rec => exact inferInstanceAs (Decidable True)
  | truncate recs dsz => exact inferInstanceAs (Decidable (dsz = sumSizes recs))

theorem bounds_of_not_needDelete {cfg : StoreConfig} {d : Data}
    (h : cappedAndNeedDelete cfg d = false) (hcap : cfg.isCapped = true) :
    d.dataSize ≤ cfg.cappedMaxSize ∧
    (cfg.cappedMaxDocs ≠ -1 → (numRecords d : Int) ≤ cfg.cappedMaxDocs) := by
  rw [cappedAndNeedDelete, hcap] at h
  constructor
  · by_contra hlt
    rw [Int.not_le] at hlt
    simp [hlt] at h
  · intro hdocs
    by_contra hlt
    rw [Int.not_le] at hlt
    have hne : (cfg.cappedMaxDocs != -1) = true := bne_iff_ne.mpr hdocs
    by_cases h1 : cfg.cappedMaxSize < d.dataSize
    · simp [h1] at h
    · simp [h1, hne, hlt] at h

/-- Claim C2 counterexample: a capped store with cappedMaxSize 8, after one
successful 5-byte insert: no eviction is due (dataSize 5 ≤ 8), yet
`storageSize()` returns 5 + 1·sizeof(EphemeralForTestRecord) = 29 > 8 —
"storageSize() never exceeds cappedMaxSize" is false on the code: the bound
the eviction loop enforces is on `dataSize`, while `storageSize()` adds a
positive per-record overhead (any positive overhead value refutes the
claim, not only the modelled 24). -/
theorem capped_storageSize_exceeds_cex :
    ¬ (storageSize sizeofEphemeralForTestRecord
        (insertRecords ⟨true, 8, -1⟩ headByteExtractor (initialData false) []
          [[9, 9, 9, 9, 9]]).d ≤ 8) := by
  decide

/-- Claim C2 amended: for a capped store (with its constructor invariants)
and any batch of inserts that passes the size pre-check, `insertRecords`
from the initial store succeeds, and afterwards the total byte size
`dataSize` never exceeds cappedMaxSize, the record count respects
cappedMaxDocs when set, `dataSize` equals the sum of the surviving record
sizes, the surviving records are exactly the most recently inserted ones (a
drop-suffix of the full key-ordered insertion sequence, oldest evicted
first), and `storageSize()` equals that sum plus `numRecords` times the
per-record overhead — so it is `dataSize`, not `storageSize()`, that the
capped bound constrains. -/
theorem capped_insert_bound_and_suffix (cfg : StoreConfig)
    (ek : List Nat → Except StorageError Nat) (payloads : List (List Nat))
    (hwf : cfg.wf) (hcap : cfg.isCapped = true)
    (hfit : ∀ p ∈ payloads, (p.length : Int) ≤ cfg.cappedMaxSize) :
    (insertRecords cfg ek (initialData false) [] payloads).err = none ∧
    (insertRecords cfg ek (initialData false) [] payloads).d.dataSize ≤
      cfg.cappedMaxSize ∧
    (cfg.cappedMaxDocs ≠ -1 →
      (numRecords (insertRecords cfg ek (initialData false) [] payloads).d : Int) ≤
        cfg.cappedMaxDocs) ∧
    (insertRecords cfg ek (initialData false) [] payloads).d.dataSize =
      sumSizes (insertRecords cfg ek (initialData false) [] payloads).d.records ∧
    (∃ j, (insertRecords cfg ek (initialData false) [] payloads).d.records =
      (idealPairs 1 payloads).drop j) ∧
    (∀ ov : Int,
      storageSize ov (insertRecords cfg ek (initialData false) [] payloads).d =
        sumSizes (insertRecords cfg ek (initialData false) [] payloads).d.records +
          (numRecords (insertRecords cfg ek (initialData false) [] payloads).d : Int)
            * ov) := by
  have hpre : (cfg.isCapped &&
      payloads.any fun p => cfg.cappedMaxSize < (p.length : Int)) = false := by
    have hany : (payloads.any fun p =>
        decide (cfg.cappedMaxSize < (p.length : Int))) = false := by
      rw [List.any_eq_false]
      intro p hp
      simp only [decide_eq_true_eq, Int.not_lt]
      exact hfit p hp
    simp [hany]
  have hrw : insertRecords cfg ek (initialData false) [] payloads =
      insertLoop cfg ek (initialData false) [] [] payloads := by
    rw [insertRecords, if_neg (by rw [hpre]; simp)]
  have hbinit : keysBelow (initialData false).records (initialData false).nextId := by
    intro k hk
    simp [initialData, keysOf] at hk
  obtain ⟨g1, g2, g3, g4⟩ := insertLoop_capped_spec cfg ek payloads
    (initialData false) [] [] rfl List.Pairwise.nil rfl hbinit
  obtain ⟨l1, l2, l3, l4, l5⟩ := insertLoop_spec cfg ek payloads
    (initialData false) [] [] List.Pairwise.nil rfl (fun _ => hbinit)
  have hbounds : (insertLoop cfg ek (initialData false) [] [] payloads).d.dataSize ≤
      cfg.cappedMaxSize ∧
      (cfg.cappedMaxDocs ≠ -1 →
        (numRecords (insertLoop cfg ek (initialData false) [] [] payloads).d : Int) ≤
          cfg.cappedMaxDocs) := by
    cases payloads with
    | nil =>
      constructor
      · show (0 : Int) ≤ cfg.cappedMaxSize
        have := (hwf.1 hcap).1
        omega
      · intro hdocs
        show ((0 : Nat) : Int) ≤ cfg.cappedMaxDocs
        rcases (hwf.1 hcap).2 with h | h
        · exact absurd h hdocs
        · omega
    | cons q qs =>
      exact bounds_of_not_needDelete (g4 (by simp) (hwf.1)) hcap
  rw [hrw]
  refine ⟨g1, hbounds.1, hbounds.2, l2, ?_, ?_⟩
  · obtain ⟨j, hj⟩ := g3
    refine ⟨j, ?_⟩
    rw [hj]
    rfl
  · intro ov
    rw [storageSize, l2]

/-- Claim C2 amended witness: the spec's capped-eviction example — a store
with cappedMaxSize 8 receives two 5-byte inserts; the call succeeds, the
byte total stays within the cap, and the survivor is exactly the second
(most recent) record. -/
theorem capped_insert_bound_and_suffix_witness :
    (insertRecords ⟨true, 8, -1⟩ headByteExtractor (initialData false) []
        [[1, 1, 1, 1, 1], [2, 2, 2, 2, 2]]).err = none ∧
    (insertRecords ⟨true, 8, -1⟩ headByteExtractor (initialData false) []
        [[1, 1, 1, 1, 1], [2, 2, 2, 2, 2]]).d.dataSize ≤ 8 ∧
    (∃ j, (insertRecords ⟨true, 8, -1⟩ headByteExtractor (initialData false) []
        [[1, 1, 1, 1, 1], [2, 2, 2, 2, 2]]).d.records =
      (idealPairs 1 [[1, 1, 1, 1, 1], [2, 2, 2, 2, 2]]).drop j) ∧
    (insertRecords ⟨true, 8, -1⟩ headByteExtractor (initialData false) []
        [[1, 1, 1, 1, 1], [2, 2, 2, 2, 2]]).d.records =
      [(2, ⟨5, [2, 2, 2, 2, 2]⟩)] := by
  have h := capped_insert_bound_and_suffix ⟨true, 8, -1⟩ headByteExtractor
    [[1, 1, 1, 1, 1], [2, 2, 2, 2, 2]] (by decide) rfl (by decide)
  exact ⟨h.1, h.2.1, h.2.2.2.2.1, by decide⟩

/-- Claim C4 counterexample: a plain store holding one 3-byte record: the
total byte size `dataSize` equals the sum of record sizes (3), but
`storageSize()` returns 3 + 1·sizeof(EphemeralForTestRecord) = 27 ≠ 3 —
"storageSize() equals that sum of current record sizes" is false on the
code for any non-empty store and positive overhead. -/
theorem storageSize_not_sum_cex :
    ¬ (storageSize sizeofEphemeralForTestRecord
        (insertRecords ⟨false, -1, -1⟩ headByteExtractor (initialData false) []
          [[1, 2, 3]]).d =
      sumSizes (insertRecords ⟨false, -1, -1⟩ headByteExtractor (initialData false) []
          [[1, 2, 3]]).d.records) := by
  decide

/-- Claim C4 amended: after every insert (with its internal evictions),
delete, update, damage update, truncate, eviction loop, and rollback of a
consistent Change, the store's total byte size `dataSize` equals the sum of
the sizes of the records currently present; `storageSize()` equals that sum
plus `numRecords` times the per-record overhead (and therefore differs from
the sum on every non-empty store). -/
theorem size_accounting_invariant (cfg : StoreConfig)
    (ek : List Nat → Except StorageError Nat) (d : Data) (chgs : List Change)
    (payloads : List (List Nat)) (loc : Nat) (newBytes src : List Nat)
    (dmgs : List Damage) (c : Change)
    (hs : sortedRecs d.records) (hz : d.dataSize = sumSizes d.records)
    (hb : d.isOplog = false → keysBelow d.records d.nextId) :
    (insertRecords cfg ek d chgs payloads).d.dataSize =
      sumSizes (insertRecords cfg ek d chgs payloads).d.records ∧
    (∀ d1 c1, deleteRecord d chgs loc = .ok (d1, c1) →
      d1.dataSize = sumSizes d1.records) ∧
    (∀ d1 c1, updateRecord cfg d chgs loc newBytes = .ok (d1, c1) →
      d1.dataSize = sumSizes d1.records) ∧
    (∀ d1 c1 r1, updateWithDamages cfg d chgs loc src dmgs = .ok (d1, c1, r1) →
      d1.dataSize = sumSizes d1.records) ∧
    (truncate d chgs).1.dataSize = sumSizes (truncate d chgs).1.records ∧
    (cappedDeleteAsNeeded cfg d chgs).1.dataSize =
      sumSizes (cappedDeleteAsNeeded cfg d chgs).1.records ∧
    (wfChange c → (c.rollback d).dataSize = sumSizes (c.rollback d).records) ∧
    (∀ ov : Int, storageSize ov d =
      sumSizes d.records + (numRecords d : Int) * ov) := by
  refine ⟨?_, ?_, ?_, ?_, ?_, ?_, ?_, ?_⟩
  · by_cases hpre : (cfg.isCapped &&
        payloads.any fun p => cfg.cappedMaxSize < (p.length : Int)) = true
    · rw [insertRecords, if_pos hpre]
      exact hz
    · rw [insertRecords, if_neg hpre]
      exact (insertLoop_spec cfg ek payloads d chgs [] hs hz hb).2.1
  · intro d1 c1 hdel
    cases hfd : findRec d.records loc with
    | none => simp [deleteRecord, hfd] at hdel
    | some r =>
      simp only [deleteRecord, hfd, Except.ok.injEq, Prod.mk.injEq] at hdel
      obtain ⟨h1, -⟩ := hdel
      rw [← h1]
      have := sumSizes_eraseRec hfd
      simp only []
      rw [this, ← hz]
  · intro d1 c1 hupd
    cases hfd : findRec d.records loc with
    | none => simp [updateRecord, hfd] at hupd
    | some old =>
      simp only [updateRecord, hfd] at hupd
      by_cases hcond : (cfg.isCapped && newBytes.length != old.size) = true
      · rw [if_pos hcond] at hupd
        exact absurd hupd (by simp)
      · rw [if_neg hcond] at hupd
        rw [Except.ok.injEq] at hupd
        have hsmid : sortedRecs (setRec d.records loc ⟨newBytes.length, newBytes⟩) :=
          sortedRecs_setRec hs _ _
        have hzmid : d.dataSize + (newBytes.length : Int) - (old.size : Int) =
            sumSizes (setRec d.records loc ⟨newBytes.length, newBytes⟩) := by
          rw [sumSizes_setRec_found _ hs hfd, ← hz]
          show d.dataSize + (newBytes.length : Int) - (old.size : Int) =
            d.dataSize - (old.size : Int) + (newBytes.length : Int)
          omega
        obtain ⟨j, evs, -, -, hdsz, -, -, -, -, -⟩ :=
          cappedDeleteAsNeeded_spec cfg
            { d with dataSize := d.dataSize + (newBytes.length : Int) - (old.size : Int),
                     records := (setRec d.records loc ⟨newBytes.length, newBytes⟩) }
            (chgs ++ [Change.remove loc old]) d1 c1 hupd hsmid hzmid
        exact hdsz
  · intro d1 c1 r1 hupd
    cases hfd : findRec d.records loc with
    | none => simp [updateWithDamages, hfd] at hupd
    | some old =>
      simp only [updateWithDamages, hfd, Except.ok.injEq, Prod.mk.injEq] at hupd
      obtain ⟨h1, h2, -⟩ := hupd
      have hsmid : sortedRecs (setRec d.records loc
          ⟨old.size, applyDamages old.bytes src dmgs⟩) :=
        sortedRecs_setRec hs _ _
      have hzmid : d.dataSize =
          sumSizes (setRec d.records loc ⟨old.size, applyDamages old.bytes src dmgs⟩) := by
        rw [sumSizes_setRec_found _ hs hfd, ← hz]
        show d.dataSize = d.dataSize - (old.size : Int) + (old.size : Int)
        omega
      obtain ⟨j, evs, -, -, hdsz, -, -, -, -, -⟩ :=
        cappedDeleteAsNeeded_spec cfg
          { d with records := (setRec d.records loc
              ⟨old.size, applyDamages old.bytes src dmgs⟩) }
          (chgs ++ [Change.remove loc old]) d1 c1 (by rw [← h1, ← h2]) hsmid hzmid
      exact hdsz
  · exact sumSizes_nil.symm
  · obtain ⟨j, evs, -, -, hdsz, -, -, -, -, -⟩ :=
      cappedDeleteAsNeeded_spec cfg d chgs
        (cappedDeleteAsNeeded cfg d chgs).1 (cappedDeleteAsNeeded cfg d chgs).2
        rfl hs hz
    exact hdsz
  · intro hwfc
    cases c with
    | insert loc0 =>
      cases hfd : findRec d.records loc0 with
      | none => simp [Change.rollback, hfd, hz]
      | some r =>
        simp only [Change.rollback, hfd]
        rw [sumSizes_eraseRec hfd, ← hz]
    | remove loc0 rec0 =>
      cases hfd : findRec d.records loc0 with
      | none =>
        have hnm : loc0 ∉ keysOf d.records := by
          intro hmem
          obtain ⟨r, hr⟩ := findRec_of_mem_keysOf hmem
          rw [hr] at hfd
          exact Option.noConfusion hfd
        simp only [Change.rollback, hfd]
        rw [sumSizes_setRec_not_mem _ hnm, ← hz]
        omega
      | some r =>
        simp only [Change.rollback, hfd]
        rw [sumSizes_setRec_found _ hs hfd, ← hz]
    | truncate recs0 dsz0 =>
      exact hwfc
  · intro ov
    rw [storageSize, hz]

/-- Claim C4 amended witness: the accounting identities at a concrete store
holding one 1-byte record at id 2: after an insert, after a truncate, after
rolling back a consistent truncate Change, and as the storageSize formula
with overhead 24. -/
theorem size_accounting_invariant_witness :
    (insertRecords ⟨false, -1, -1⟩ headByteExtractor
        (⟨[(2, ⟨1, [9]⟩)], 1, 3, false⟩ : Data) [] [[7]]).d.dataSize =
      sumSizes (insertRecords ⟨false, -1, -1⟩ headByteExtractor
        (⟨[(2, ⟨1, [9]⟩)], 1, 3, false⟩ : Data) [] [[7]]).d.records ∧
    (truncate (⟨[(2, ⟨1, [9]⟩)], 1, 3, false⟩ : Data) []).1.dataSize =
      sumSizes (truncate (⟨[(2, ⟨1, [9]⟩)], 1, 3, false⟩ : Data) []).1.records ∧
    ((Change.truncate [(2, ⟨1, [9]⟩)] 1).rollback
        (⟨[(2, ⟨1, [9]⟩)], 1, 3, false⟩ : Data)).dataSize =
      sumSizes ((Change.truncate [(2, ⟨1, [9]⟩)] 1).rollback
        (⟨[(2, ⟨1, [9]⟩)], 1, 3, false⟩ : Data)).records ∧
    storageSize 24 (⟨[(2, ⟨1, [9]⟩)], 1, 3, false⟩ : Data) =
      sumSizes [(2, ⟨1, [9]⟩)] + (1 : Int) * 24 := by
  have h := size_accounting_invariant ⟨false, -1, -1⟩ headByteExtractor
    (⟨[(2, ⟨1, [9]⟩)], 1, 3, false⟩ : Data) [] [[7]] 2 [4] [] []
    (Change.truncate [(2, ⟨1, [9]⟩)] 1)
    (by decide) (by decide) (fun _ => by decide)
  exact ⟨h.1, h.2.2.2.2.1, h.2.2.2.2.2.2.1 (by decide), h.2.2.2.2.2.2.2 24⟩

/-- Claim C5 counterexample: a batch insert of keys 5 then 3 into an empty
oplog store returns the recoverable out-of-order error, yet when the call
returns the first record of the batch is still inserted and the byte total
has changed — the store is not as if the call had never been issued. -/
theorem partial_batch_after_error_cex :
    (insertRecords ⟨false, -1, -1⟩ headByteExtractor (initialData true) []
        [[5], [3]]).err = some (StorageError.outOfOrder 3 5) ∧
    (insertRecords ⟨false, -1, -1⟩ headByteExtractor (initialData true) []
        [[5], [3]]).d.records = [(5, ⟨1, [5]⟩)] ∧
    ¬ ((insertRecords ⟨false, -1, -1⟩ headByteExtractor (initialData true) []
        [[5], [3]]).d = initialData true) := by
  refine ⟨by decide, by decide, by decide⟩

/-- Claim C5 amended: a capacity-exceeded batch is rejected by the
pre-check with the store and change list untouched; for every other failure
(such as a mid-batch OutOfOrder), records of the batch inserted before the
failure remain in place when the call returns, and it is rolling back the
Changes the call registered — as the enclosing transaction's abort does —
that restores the record map and byte total exactly (only the id allocator
keeps its advanced value, which no read operation exposes). -/
theorem insert_failure_rollback_restores (cfg : StoreConfig)
    (ek : List Nat → Except StorageError Nat) (d : Data) (payloads : List (List Nat))
    (hs : sortedRecs d.records) (hz : d.dataSize = sumSizes d.records)
    (hb : d.isOplog = false → keysBelow d.records d.nextId) :
    ((cfg.isCapped && payloads.any fun p => cfg.cappedMaxSize < (p.length : Int)) = true →
      insertRecords cfg ek d [] payloads = ⟨d, [], [], some .capacityExceeded⟩) ∧
    rollbackAll (insertRecords cfg ek d [] payloads).chgs
        (insertRecords cfg ek d [] payloads).d =
      { d with nextId := (insertRecords cfg ek d [] payloads).d.nextId } := by
  constructor
  · intro hpre
    rw [insertRecords, if_pos hpre]
  · by_cases hpre : (cfg.isCapped &&
        payloads.any fun p => cfg.cappedMaxSize < (p.length : Int)) = true
    · rw [insertRecords, if_pos hpre]
      rfl
    · rw [insertRecords, if_neg hpre]
      obtain ⟨l1, l2, l3, l4, l5⟩ := insertLoop_spec cfg ek payloads d [] [] hs hz hb
      obtain ⟨evs, he1, he2⟩ := l5
      rw [he1]
      simpa using he2

/-- Claim C5 amended witness: the pre-check case — a 9-byte record into a
cappedMaxSize-8 store leaves everything untouched — and the mid-batch case —
after the failing [5, 3] oplog batch, rolling back the registered Changes
restores the empty initial store exactly. -/
theorem insert_failure_rollback_restores_witness :
    insertRecords ⟨true, 8, -1⟩ headByteExtractor (initialData false) []
        [[9, 9, 9, 9, 9, 9, 9, 9, 9]] =
      ⟨initialData false, [], [], some .capacityExceeded⟩ ∧
    rollbackAll (insertRecords ⟨false, -1, -1⟩ headByteExtractor (initialData true) []
          [[5], [3]]).chgs
        (insertRecords ⟨false, -1, -1⟩ headByteExtractor (initialData true) []
          [[5], [3]]).d =
      initialData true := by
  constructor
  · exact (insert_failure_rollback_restores ⟨true, 8, -1⟩ headByteExtractor
      (initialData false) [[9, 9, 9, 9, 9, 9, 9, 9, 9]]
      List.Pairwise.nil rfl (fun _ => by intro k hk; simp [initialData, keysOf] at hk)).1
      (by decide)
  · exact (insert_failure_rollback_restores ⟨false, -1, -1⟩ headByteExtractor
      (initialData true) [[5], [3]]
      List.Pairwise.nil rfl (fun _ => by intro k hk; simp [initialData, keysOf] at hk)).2

end Claims

end EphemeralForTest
